import Mathlib

/-!
Verification development for the chunking core of the repository
(`src/chonkie/chunker/sentence.py` and `src/chonkie/chunker/code.py`).

The external tokenizer is modelled as an oracle `tok` mapping a
sentence (character list) or a node's text (byte list) to a token count
(`Nat`; Python token counts are non-negative).  Strings are modelled as
`List Char`, byte buffers as `List Nat`.  Python `bisect_left` is modelled
by counting the leading elements strictly below the target, which agrees
with `bisect_left` on sorted input; all lists it is applied to here are
cumulative sums of natural numbers, hence sorted.  Functions that loop
with a strictly increasing cursor are written with an explicit structural
fuel argument equal to a provably sufficient bound, so that every
definition evaluates by `decide`/`rfl`; fuel-sufficiency lemmas below show
the fuel never runs out at the chosen bounds.
-/

namespace Chonkie

/-! ## Sentence splitter (`SentenceChunker._split_text`) -/

/-- The three values of `include_delim` accepted by the code:
`"prev"`, `"next"`, and `None`. -/
inductive IncludeDelim : Type where
  | prev : IncludeDelim
  | next : IncludeDelim
  | nodelim : IncludeDelim
deriving DecidableEq, Repr

/-- Python `str.replace(old, new)` (leftmost, non-overlapping), with fuel;
`fuel = s.length` always suffices since each step consumes at least one
character.  An empty `old` is treated as a no-op: Python would interleave
`new` everywhere, but every use in the source replaces a delimiter string
by a marked variant of itself, and the character content relevant below is
unchanged in both readings. -/
def listReplaceF (old new : List Char) : Nat → List Char → List Char
  | _, [] => []
  | 0, s => s
  | fuel + 1, a :: s =>
    if old ≠ [] ∧ old.isPrefixOf (a :: s) then
      new ++ listReplaceF old new fuel (List.drop (old.length - 1) s)
    else
      a :: listReplaceF old new fuel s

/-- Python `s.replace(old, new)`. -/
def listReplace (s old new : List Char) : List Char :=
  listReplaceF old new s.length s

/-- One delimiter-marking step of `_split_text`: `prev` keeps the delimiter
with the preceding text (`c -> c + sep`), `next` with the following text
(`c -> sep + c`), `None` drops it (`c -> sep`). -/
def markDelim (mode : IncludeDelim) (sep : Char) (d t : List Char) : List Char :=
  match mode with
  | .prev => listReplace t d (d ++ [sep])
  | .next => listReplace t d ([sep] ++ d)
  | .nodelim => listReplace t d [sep]

/-- The `for c in self.delim: t = t.replace(...)` loop of `_split_text`. -/
def markAll (mode : IncludeDelim) (sep : Char) (delims : List (List Char)) (t : List Char) :
    List Char :=
  delims.foldl (fun acc d => markDelim mode sep d acc) t

/-- Python `t.split(sep)` for a one-character separator. -/
def splitSep (sep : Char) : List Char → List (List Char)
  | [] => [[]]
  | a :: s =>
    if a = sep then [] :: splitSep sep s
    else
      match splitSep sep s with
      | [] => [[a]]
      | t :: ts => (a :: t) :: ts

/-- One iteration of the short-split merge loop of `_split_text`; the state
is `(current, sentences)`. -/
def mergeStep (minChars : Nat) (st : List Char × List (List Char)) (s : List Char) :
    List Char × List (List Char) :=
  let st1 :=
    if s.length < minChars then (st.1 ++ s, st.2)
    else if st.1 ≠ [] then ([], st.2 ++ [st.1 ++ s])
    else (st.1, st.2 ++ [s])
  if minChars ≤ st1.1.length then ([], st1.2 ++ [st1.1]) else st1

/-- The short-split merge loop of `_split_text`, including the final flush
of a trailing non-empty buffer. -/
def mergeShort (minChars : Nat) (splits : List (List Char)) : List (List Char) :=
  let st := splits.foldl (mergeStep minChars) ([], [])
  if st.1 ≠ [] then st.2 ++ [st.1] else st.2

/-- The sentinel character `self.sep = "✄"` used by the source. -/
def sepChar : Char := '✄'

/-- `SentenceChunker._split_text`. -/
def splitText (mode : IncludeDelim) (sep : Char) (delims : List (List Char)) (minChars : Nat)
    (text : List Char) : List (List Char) :=
  let t := markAll mode sep delims text
  let splits := (splitSep sep t).filter (fun s => s ≠ [])
  mergeShort minChars splits

/-! ## Sentences and chunks (`chonkie.types`) -/

/-- A `Sentence` record: exact substring, character offsets, oracle token
count (`_prepare_sentences`). -/
structure Sentence : Type where
  text : List Char
  start_index : Nat
  end_index : Nat
  token_count : Nat
deriving DecidableEq, Repr

/-- A `SentenceChunk` record as built by `_create_chunk`. -/
structure SChunk : Type where
  text : List Char
  start_index : Nat
  end_index : Nat
  token_count : Nat
  sentences : List Sentence
deriving DecidableEq, Repr

/-- Default sentence, used only to express Python `list[0]` / `list[-1]`
indexing on lists that are provably non-empty at the call sites. -/
def dSentence : Sentence := ⟨[], 0, 0, 0⟩

/-- The position/token-count assembly loop of `_prepare_sentences`. -/
def buildSentences (tok : List Char → Nat) : Nat → List (List Char) → List Sentence
  | _, [] => []
  | pos, s :: rest =>
    ⟨s, pos, pos + s.length, tok s⟩ :: buildSentences tok (pos + s.length) rest

/-- `SentenceChunker._create_chunk` (in `"chunks"` mode): the chunk text is
the concatenation of the constituent sentence texts, the offsets come from
the first and last sentences, and the token count is passed through. -/
def mkChunk (ss : List Sentence) (tc : Nat) : SChunk :=
  { text := (ss.map (fun s => s.text)).flatten
    start_index := (ss.headD dSentence).start_index
    end_index := (ss.getLastD dSentence).end_index
    token_count := tc
    sentences := ss }

/-! ## Sentence packer (`SentenceChunker.chunk`) -/

/-- Python `list(accumulate(counts, initial=0))`: cumulative sums with a
leading zero, so `(cumsum l).getD i 0 = (l.take i).sum`. -/
def cumsum (l : List Nat) : List Nat :=
  (List.range (l.length + 1)).map (fun i => (l.take i).sum)

/-- Python `bisect.bisect_left(a, x, lo)` on a sorted list: `lo` plus the
number of elements of `a.drop lo` strictly below `x`. -/
def bisectLeftFrom (a : List Nat) (x lo : Nat) : Nat :=
  lo + ((a.drop lo).takeWhile (fun v => v < x)).length

/-- Python `bisect.bisect_left(a, x)`. -/
def bisectLeft (a : List Nat) (x : Nat) : Nat :=
  bisectLeftFrom a x 0

/-- The split-index selection of the packer loop before the
minimum-sentences adjustment:
`bisect_left(token_sums, token_sums[pos] + chunk_size) - 1`, clamped into
`[pos + 1, n]` (`min` with `n`, then `max` with `pos + 1`, in source
order). -/
def rawSplitIdx (cs n : Nat) (sums : List Nat) (pos : Nat) : Nat :=
  max (min (bisectLeft sums (sums.getD pos 0 + cs) - 1) n) (pos + 1)

/-- The split index after the minimum-sentences adjustment: if the selected
span has fewer than `min_sentences_per_chunk` sentences, force exactly the
minimum when enough sentences remain, otherwise take all remaining
sentences. -/
def splitIdxAt (cs ms n : Nat) (sums : List Nat) (pos : Nat) : Nat :=
  let si := rawSplitIdx cs n sums pos
  if si - pos < ms then (if pos + ms ≤ n then pos + ms else n) else si

/-- Whether the `UnmetMinimumWarning` branch (`warnings.warn(...)`) fires
at cursor `pos`. -/
def warnAt (cs ms n : Nat) (sums : List Nat) (pos : Nat) : Bool :=
  decide (rawSplitIdx cs n sums pos - pos < ms ∧ ¬ pos + ms ≤ n)

/-- The backward overlap walk: from `overlap_idx` (second argument) with
accumulated `overlap_tokens` (third argument), walk down while
`overlap_idx > pos` and the accumulated count stays below `chunk_overlap`,
adding `token_count + 1` per sentence and stopping before the total would
exceed `chunk_overlap`; returns the final `overlap_idx`. -/
def owalk (co : Nat) (counts : List Nat) (pos : Nat) : Nat → Nat → Nat
  | 0, _ => 0
  | oidx + 1, otok =>
    if pos < oidx + 1 ∧ otok < co then
      let nextTok := otok + counts.getD (oidx + 1) 0 + 1
      if co < nextTok then oidx + 1
      else owalk co counts pos oidx nextTok
    else oidx + 1

/-- The next cursor position of the packer loop: the overlap walk result
plus one when `chunk_overlap > 0` and sentences remain, else `split_idx`. -/
def nextPosAt (cs ms co n : Nat) (counts sums : List Nat) (pos : Nat) : Nat :=
  let si := splitIdxAt cs ms n sums pos
  if 0 < co ∧ si < n then owalk co counts pos (si - 1) 0 + 1 else si

/-- The chunk emitted by one iteration of the packer loop at cursor `pos`:
sentences `pos` to `split_idx - 1` with their exact summed token count.
Note it does not depend on `chunk_overlap`. -/
def emitAt (cs ms n : Nat) (sentences : List Sentence) (sums : List Nat) (pos : Nat) : SChunk :=
  let si := splitIdxAt cs ms n sums pos
  let ss := (sentences.drop pos).take (si - pos)
  mkChunk ss ((ss.map (fun s => s.token_count)).sum)

/-- The `while pos < len(sentences)` packer loop of `chunk`, with fuel;
`fuel = n - pos` suffices because the cursor strictly increases.  Returns
the chunk list and whether any `UnmetMinimumWarning` fired. -/
def chunkLoopF (cs ms co n : Nat) (sentences : List Sentence) (counts sums : List Nat) :
    Nat → Nat → List SChunk × Bool
  | 0, _ => ([], false)
  | fuel + 1, pos =>
    if pos < n then
      let c := emitAt cs ms n sentences sums pos
      let w := warnAt cs ms n sums pos
      let r := chunkLoopF cs ms co n sentences counts sums fuel
        (nextPosAt cs ms co n counts sums pos)
      (c :: r.1, w || r.2)
    else ([], false)

/-- The packer loop from cursor `pos`, at its sufficient fuel `n - pos`. -/
def chunkLoop (cs ms co n : Nat) (sentences : List Sentence) (counts sums : List Nat)
    (pos : Nat) : List SChunk × Bool :=
  chunkLoopF cs ms co n sentences counts sums (n - pos) pos

/-- The packer on a prepared sentence list (the part of `chunk` after
`_prepare_sentences`). -/
def sentencePack (cs ms co : Nat) (sentences : List Sentence) : List SChunk × Bool :=
  let counts := sentences.map (fun s => s.token_count)
  let sums := cumsum counts
  chunkLoop cs ms co sentences.length sentences counts sums 0

/-- Construction-time configuration of `SentenceChunker` after validation
(`return_type` is irrelevant to the properties below and omitted). -/
structure SCfg : Type where
  chunk_size : Nat
  chunk_overlap : Nat
  min_sentences_per_chunk : Nat
  min_characters_per_sentence : Nat
  delim : List (List Char)
  include_delim : IncludeDelim
deriving Repr

/-- `SentenceChunker._prepare_sentences`. -/
def prepareSentences (cfg : SCfg) (tok : List Char → Nat) (text : List Char) : List Sentence :=
  buildSentences tok 0
    (splitText cfg.include_delim sepChar cfg.delim cfg.min_characters_per_sentence text)

/-- `SentenceChunker.chunk` (in `"chunks"` mode): empty for
whitespace-only input, else split, tokenize and pack.  The second
component records whether an `UnmetMinimumWarning` was surfaced. -/
def sentenceChunk (cfg : SCfg) (tok : List Char → Nat) (text : List Char) :
    List SChunk × Bool :=
  if text.all Char.isWhitespace then ([], false)
  else
    let sentences := prepareSentences cfg tok text
    if sentences = [] then ([], false)
    else sentencePack cfg.chunk_size cfg.min_sentences_per_chunk cfg.chunk_overlap sentences

/-! ## Construction-time validation (`SentenceChunker.__init__`) -/

/-- The `include_delim` argument as the dynamically-typed code sees it:
one of the two supported strings, `None`, or any other (unsupported)
value. -/
inductive IncludeDelimParam : Type where
  | prev : IncludeDelimParam
  | next : IncludeDelimParam
  | nonep : IncludeDelimParam
  | other : IncludeDelimParam
deriving DecidableEq, Repr

/-- The `return_type` argument: one of the two supported strings or any
other (unsupported) value. -/
inductive ReturnTypeParam : Type where
  | chunks : ReturnTypeParam
  | texts : ReturnTypeParam
  | other : ReturnTypeParam
deriving DecidableEq, Repr

/-- The construction-time parameters of `SentenceChunker.__init__` as
passed (Python ints may be negative; `delim` may be `None`). -/
structure RawConfig : Type where
  chunk_size : Int
  chunk_overlap : Int
  min_sentences_per_chunk : Int
  min_characters_per_sentence : Int
  delim : Option (List (List Char))
  include_delim : IncludeDelimParam
  return_type : ReturnTypeParam
deriving DecidableEq, Repr

/-- The validation chain of `SentenceChunker.__init__`, in source order;
`Except.error` models a raised `ValueError`. -/
def initValidate (cfg : RawConfig) : Except (List Char) Unit :=
  if cfg.chunk_size ≤ 0 then .error ("chunk_size must be positive").toList
  else if cfg.chunk_size ≤ cfg.chunk_overlap then
    .error ("chunk_overlap must be less than chunk_size").toList
  else if cfg.min_sentences_per_chunk < 1 then
    .error ("min_sentences_per_chunk must be at least 1").toList
  else if cfg.min_characters_per_sentence < 1 then
    .error ("min_characters_per_sentence must be at least 1").toList
  else if cfg.delim = none then
    .error ("delim must be a list of strings or a string").toList
  else if cfg.include_delim = .other then
    .error ("include_delim must be prev, next or None").toList
  else if cfg.return_type = .other then
    .error ("Invalid return_type. Must be either chunks or texts.").toList
  else .ok ()

/-! ## Syntax node grouper (`CodeChunker._group_child_nodes`) -/

/-- A tree-sitter style node: byte offsets, text bytes, ordered children.
Bytes are modelled as `Nat`. -/
inductive SNode : Type where
  | mk : Nat → Nat → List Nat → List SNode → SNode

/-- `node.start_byte`. -/
def SNode.start_byte : SNode → Nat
  | .mk sb _ _ _ => sb

/-- `node.end_byte`. -/
def SNode.end_byte : SNode → Nat
  | .mk _ eb _ _ => eb

/-- `node.text` (bytes). -/
def SNode.text : SNode → List Nat
  | .mk _ _ tx _ => tx

/-- `node.children`. -/
def SNode.children : SNode → List SNode
  | .mk _ _ _ ch => ch

/-- Default node for Python `group[0]` / `group[-1]` indexing on groups
that are provably non-empty at the call sites. -/
def dNode : SNode := .mk 0 0 [] []

/-- The pass-2 merge boundary at position `pos` of the coalescing loop:
`bisect_left(cum, cum[pos] + chunk_size, lo=pos) - 1`, bumped to
`pos + 1` when it equals `pos`, clamped by `len(groups)`, and forced to
`pos + 1` if still not past `pos` — exactly the index arithmetic of the
source's merge loop. -/
def p2index (cs glen : Nat) (cum : List Nat) (pos : Nat) : Nat :=
  let i0 := bisectLeftFrom cum (cum.getD pos 0 + cs) pos - 1
  let i1 := if i0 = pos then pos + 1 else i0
  let i2 := min i1 glen
  if i2 ≤ pos then pos + 1 else i2

/-- The pass-2 coalescing loop (`while pos < len(node_groups)`), with fuel;
`fuel = glen - pos` suffices since the boundary is always past `pos`.
Merging a slice of groups is `_merge_node_groups`, i.e. flattening. -/
def p2loopF (cs : Nat) (gs : List (List SNode)) (cum : List Nat) :
    Nat → Nat → List (List SNode) × List Nat
  | 0, _ => ([], [])
  | fuel + 1, pos =>
    if pos < gs.length then
      let index := p2index cs gs.length cum pos
      let slice := (gs.drop pos).take (index - pos)
      if slice.isEmpty then ([], [])
      else
        let r := p2loopF cs gs cum fuel index
        (slice.flatten :: r.1, (cum.getD index 0 - cum.getD pos 0) :: r.2)
    else ([], [])

/-- Pass 2 of `_group_child_nodes`: coalesce adjacent pass-1 groups using
the cumulative token counts. -/
def pass2 (cs : Nat) (p : List (List SNode) × List Nat) : List (List SNode) × List Nat :=
  p2loopF cs p.1 (cumsum p.2) p.1.length 0

mutual

/-- `CodeChunker._group_child_nodes`: empty result for a childless node
(the source's `TODO` base case), else pass 1 over the children followed by
the pass-2 coalescing merge. -/
def groupChildNodes (cs : Nat) (tok : List Nat → Nat) : SNode → List (List SNode) × List Nat
  | .mk _ _ _ ch =>
    if ch.isEmpty then ([], [])
    else pass2 cs (p1core cs tok ch [] [] [] 0)
termination_by structural n => n

/-- Pass 1 of `_group_child_nodes` (the `for child in node.children`
loop).  State: accumulated groups `gs` and counts `cnts`, current group
`cur` with running count `curc`.  An oversized child
(`token_count > chunk_size`) flushes the current group and splices in the
recursive grouping of the child; a child that would overflow the running
total flushes and starts a new group; otherwise it joins the current
group.  After the loop a non-empty current group is flushed. -/
def p1core (cs : Nat) (tok : List Nat → Nat) :
    List SNode → List (List SNode) → List Nat → List SNode → Nat →
    List (List SNode) × List Nat
  | [], gs, cnts, cur, curc =>
    if cur.isEmpty then (gs, cnts) else (gs ++ [cur], cnts ++ [curc])
  | child :: rest, gs, cnts, cur, curc =>
    let tc := tok child.text
    if cs < tc then
      let gs1 := if cur.isEmpty then gs else gs ++ [cur]
      let cnts1 := if cur.isEmpty then cnts else cnts ++ [curc]
      let sub := groupChildNodes cs tok child
      p1core cs tok rest (gs1 ++ sub.1) (cnts1 ++ sub.2) [] 0
    else if cs < curc + tc then
      p1core cs tok rest (gs ++ [cur]) (cnts ++ [curc]) [child] tc
    else
      p1core cs tok rest gs cnts (cur ++ [child]) (curc + tc)
termination_by structural chs => chs

end

/-! ## Group-to-text reconstruction (`CodeChunker._get_texts_from_node_groups`) -/

/-- Python byte-slice `l[a:b]` for non-negative indices (clamping, empty
when `a ≥ b`). -/
def pySlice (l : List Nat) (a b : Nat) : List Nat :=
  (l.take b).drop a

/-- The per-group loop of `_get_texts_from_node_groups`, at the byte level
(decoding is an external lossy oracle; the reconstruction property is
byte-for-byte).  An empty group is skipped; a group with `start > end` or
`end` out of bounds is skipped with a warning; otherwise the slice runs
from the group's first node's start to the next group's first node's start
(gap bytes attributed to the preceding group) or to its own last node's
end for the final group.  `none` models an uncaught `IndexError`
(`node_groups[i+1][0]` on an empty next group). -/
def reconLoop (obytes : List Nat) : List (List SNode) → Option (List (List Nat))
  | [] => some []
  | g :: rest =>
    if g.isEmpty then reconLoop obytes rest
    else
      let sb := (g.headD dNode).start_byte
      let eb := (g.getLastD dNode).end_byte
      if eb < sb then reconLoop obytes rest
      else if obytes.length < eb then reconLoop obytes rest
      else
        match rest with
        | [] => (reconLoop obytes rest).map (fun ts => pySlice obytes sb eb :: ts)
        | ng :: _ =>
          match ng.head? with
          | none => none
          | some nf => (reconLoop obytes rest).map (fun ts => pySlice obytes sb nf.start_byte :: ts)

/-- Python `chunk_texts[0] = prefix + chunk_texts[0]`; `none` models the
`IndexError` on an empty list. -/
def prependFirst (pre : List Nat) : List (List Nat) → Option (List (List Nat))
  | [] => none
  | c :: rest => some ((pre ++ c) :: rest)

/-- Python `chunk_texts[-1] = chunk_texts[-1] + suffix`; `none` models the
`IndexError` on an empty list. -/
def appendLast (suf : List Nat) (cts : List (List Nat)) : Option (List (List Nat)) :=
  match cts.getLast? with
  | none => none
  | some c => some (cts.dropLast ++ [c ++ suf])

/-- `CodeChunker._get_texts_from_node_groups` at the byte level: the loop
above plus the post-processing that prepends the bytes before the first
group's first node to the first chunk and appends the bytes after the last
group's last node to the last chunk.  `none` models an uncaught
`IndexError` (`node_groups[0][0]`, `node_groups[-1][-1]`,
`chunk_texts[0]`, `chunk_texts[-1]` on empty lists). -/
def getTextsFromNodeGroups (ngs : List (List SNode)) (obytes : List Nat) :
    Option (List (List Nat)) :=
  if obytes = [] then some []
  else do
    let cts ← reconLoop obytes ngs
    let g0 ← ngs.head?
    let f0 ← g0.head?
    let cts ←
      if f0.start_byte ≠ 0 then prependFirst (pySlice obytes 0 f0.start_byte) cts
      else some cts
    let gl ← ngs.getLast?
    let ll ← gl.getLast?
    let cts ←
      if ll.end_byte ≠ obytes.length then
        appendLast (pySlice obytes ll.end_byte obytes.length) cts
      else some cts
    pure cts

/-- Whether a byte is ASCII whitespace (models `str.strip()` emptiness on
the decoded text). -/
def isWsByte (b : Nat) : Bool :=
  b = 32 || b = 9 || b = 10 || b = 13 || b = 11 || b = 12

/-- `CodeChunker.chunk` in `"texts"` mode at the byte level: empty result
for whitespace-only input, else group the root's children and reconstruct
each group's bytes.  `none` models the chunk call raising instead of
returning. -/
def codeChunkTexts (cs : Nat) (tok : List Nat → Nat) (root : SNode) (obytes : List Nat) :
    Option (List (List Nat)) :=
  if obytes.all isWsByte then some []
  else getTextsFromNodeGroups (groupChildNodes cs tok root).1 obytes

/-- First node's start byte of a group (`group[0].start_byte`). -/
def groupStart (g : List SNode) : Nat :=
  (g.headD dNode).start_byte

/-- Last node's end byte of a group (`group[-1].end_byte`). -/
def groupEnd (g : List SNode) : Nat :=
  (g.getLastD dNode).end_byte

mutual

/-- Weight of a node (for induction over the mutual grouping recursion). -/
def nodeW : SNode → Nat
  | .mk _ _ _ ch => 1 + listW ch

/-- Weight of a forest. -/
def listW : List SNode → Nat
  | [] => 0
  | c :: rest => 1 + nodeW c + listW rest

end

/-! ## Derived sums used in statements -/

/-- Sum of `l[a:b]` (token mass of a span of units). -/
def takeSum (l : List Nat) (a b : Nat) : Nat :=
  ((l.drop a).take (b - a)).sum

/-- Overlap mass of a span: each unit contributes its token count plus one
(the packer's per-sentence spacing unit). -/
def massRange (l : List Nat) (a b : Nat) : Nat :=
  (((l.drop a).take (b - a)).map (fun c => c + 1)).sum

/-! ## Helper lemmas: cumulative sums and bisect -/

theorem cumsum_length (l : List Nat) : (cumsum l).length = l.length + 1 := by
  simp [cumsum]

theorem cumsum_getD (l : List Nat) (i : Nat) (h : i ≤ l.length) :
    (cumsum l).getD i 0 = (l.take i).sum := by
  rw [cumsum, List.getD_eq_getElem?_getD, List.getElem?_map,
    List.getElem?_range (by omega)]
  rfl

theorem take_sum_le_take_sum (l : List Nat) {i j : Nat} (h : i ≤ j) :
    (l.take i).sum ≤ (l.take j).sum := by
  have hj : j = i + (j - i) := by omega
  rw [hj, List.take_add, List.sum_append]
  exact Nat.le_add_right _ _

theorem cumsum_mono (l : List Nat) {i j : Nat} (hij : i ≤ j) (hj : j ≤ l.length) :
    (cumsum l).getD i 0 ≤ (cumsum l).getD j 0 := by
  rw [cumsum_getD l i (le_trans hij hj), cumsum_getD l j hj]
  exact take_sum_le_take_sum l hij

theorem takeSum_eq (l : List Nat) {a b : Nat} (hab : a ≤ b) (hb : b ≤ l.length) :
    takeSum l a b = (cumsum l).getD b 0 - (cumsum l).getD a 0 := by
  rw [cumsum_getD l a (le_trans hab hb), cumsum_getD l b hb, takeSum]
  have heq : (l.take b).sum = (l.take a).sum + ((l.drop a).take (b - a)).sum := by
    have hb2 : b = a + (b - a) := by omega
    conv_lhs => rw [hb2, List.take_add, List.sum_append]
  omega

theorem cumsum_getD_succ_sub (l : List Nat) {i : Nat} (h : i < l.length) :
    (cumsum l).getD (i + 1) 0 - (cumsum l).getD i 0 = l.getD i 0 := by
  rw [cumsum_getD l i (le_of_lt h), cumsum_getD l (i + 1) h]
  rw [List.take_succ, List.sum_append, List.getElem?_eq_getElem h,
    List.getD_eq_getElem?_getD, List.getElem?_eq_getElem h]
  simp

/-- Elements strictly before the length of a `takeWhile` prefix satisfy
the predicate. -/
theorem takeWhile_lt_of_lt (x : Nat) :
    ∀ (l : List Nat) (i : Nat), i < (l.takeWhile (fun v => v < x)).length →
      l.getD i 0 < x := by
  intro l
  induction l with
  | nil => intro i hi; simp at hi
  | cons a t ih =>
    intro i hi
    by_cases ha : a < x
    · rw [List.takeWhile_cons_of_pos (by simpa using ha)] at hi
      cases i with
      | zero => simpa using ha
      | succ k =>
        simp only [List.length_cons, Nat.succ_lt_succ_iff] at hi
        simpa using ih k hi
    · rw [List.takeWhile_cons_of_neg (by simpa using ha)] at hi
      simp at hi

/-- The first element past a `takeWhile` prefix (when it exists) fails the
predicate. -/
theorem takeWhile_ge_at_length (x : Nat) :
    ∀ (l : List Nat), (l.takeWhile (fun v => v < x)).length < l.length →
      x ≤ l.getD (l.takeWhile (fun v => v < x)).length 0 := by
  intro l
  induction l with
  | nil => intro h; simp at h
  | cons a t ih =>
    intro h
    by_cases ha : a < x
    · rw [List.takeWhile_cons_of_pos (by simpa using ha)] at h ⊢
      simp only [List.length_cons, Nat.succ_lt_succ_iff] at h
      simpa using ih h
    · rw [List.takeWhile_cons_of_neg (by simpa using ha)]
      simpa using Nat.le_of_not_lt ha

theorem takeWhile_length_le (x : Nat) (l : List Nat) :
    (l.takeWhile (fun v => v < x)).length ≤ l.length :=
  (List.takeWhile_sublist _).length_le

theorem drop_getD (a : List Nat) (lo k : Nat) :
    (a.drop lo).getD k 0 = a.getD (lo + k) 0 := by
  rw [List.getD_eq_getElem?_getD, List.getD_eq_getElem?_getD, List.getElem?_drop]

/-- Elements of the searched list at positions in `[lo, bisect_left)` are
strictly below the target. -/
theorem bisectLeftFrom_lt (a : List Nat) (x lo i : Nat) (hlo : lo ≤ i)
    (hi : i < bisectLeftFrom a x lo) : a.getD i 0 < x := by
  unfold bisectLeftFrom at hi
  have h1 := takeWhile_lt_of_lt x (a.drop lo) (i - lo) (by omega)
  rw [drop_getD] at h1
  have hlok : lo + (i - lo) = i := by omega
  rwa [hlok] at h1

/-- The element at the `bisect_left` result (when within bounds) is at or
above the target. -/
theorem bisectLeftFrom_ge (a : List Nat) (x lo : Nat)
    (hin : bisectLeftFrom a x lo < a.length) :
    x ≤ a.getD (bisectLeftFrom a x lo) 0 := by
  unfold bisectLeftFrom at *
  set k := ((a.drop lo).takeWhile (fun v => v < x)).length with hk
  have hlen : k < (a.drop lo).length := by
    rw [List.length_drop]
    omega
  have h1 := takeWhile_ge_at_length x (a.drop lo) (by rw [← hk]; exact hlen)
  rw [← hk, drop_getD] at h1
  exact h1

theorem bisectLeftFrom_le_length (a : List Nat) (x lo : Nat) (hlo : lo ≤ a.length) :
    bisectLeftFrom a x lo ≤ a.length := by
  unfold bisectLeftFrom
  have h1 := takeWhile_length_le x (a.drop lo)
  rw [List.length_drop] at h1
  omega

theorem le_bisectLeftFrom (a : List Nat) (x lo : Nat) : lo ≤ bisectLeftFrom a x lo := by
  unfold bisectLeftFrom
  omega

/-! ## Helper lemmas: packer cursor progress -/

theorem rawSplitIdx_bounds (cs n : Nat) (sums : List Nat) (pos : Nat) (h : pos < n) :
    pos < rawSplitIdx cs n sums pos ∧ rawSplitIdx cs n sums pos ≤ n := by
  unfold rawSplitIdx
  omega

theorem splitIdxAt_bounds (cs ms n : Nat) (sums : List Nat) (pos : Nat) (h : pos < n) :
    pos < splitIdxAt cs ms n sums pos ∧ splitIdxAt cs ms n sums pos ≤ n := by
  have hraw := rawSplitIdx_bounds cs n sums pos h
  unfold splitIdxAt
  by_cases h1 : rawSplitIdx cs n sums pos - pos < ms
  · by_cases h2 : pos + ms ≤ n <;> simp [h1, h2] <;> omega
  · simp [h1]
    omega

theorem owalk_le (co : Nat) (counts : List Nat) (pos : Nat) :
    ∀ oidx otok, owalk co counts pos oidx otok ≤ oidx := by
  intro oidx
  induction oidx with
  | zero => intro otok; simp [owalk]
  | succ k ih =>
    intro otok
    unfold owalk
    split
    · dsimp only
      split
      · exact Nat.le_refl _
      · exact le_trans (ih _) (Nat.le_succ k)
    · exact Nat.le_refl _

theorem owalk_ge (co : Nat) (counts : List Nat) (pos : Nat) :
    ∀ oidx otok, pos ≤ oidx → pos ≤ owalk co counts pos oidx otok := by
  intro oidx
  induction oidx with
  | zero => intro otok h; simpa [owalk] using h
  | succ k ih =>
    intro otok h
    unfold owalk
    split
    · dsimp only
      split
      · exact h
      · next h1 h2 => exact ih _ (by omega)
    · exact h

theorem nextPosAt_bounds (cs ms co n : Nat) (counts sums : List Nat) (pos : Nat)
    (h : pos < n) :
    pos < nextPosAt cs ms co n counts sums pos ∧ nextPosAt cs ms co n counts sums pos ≤ n := by
  have hsi := splitIdxAt_bounds cs ms n sums pos h
  unfold nextPosAt
  by_cases h1 : 0 < co ∧ splitIdxAt cs ms n sums pos < n
  · simp only [if_pos h1]
    have hge := owalk_ge co counts pos (splitIdxAt cs ms n sums pos - 1) 0 (by omega)
    have hle := owalk_le co counts pos (splitIdxAt cs ms n sums pos - 1) 0
    omega
  · simp only [if_neg h1]
    exact hsi

theorem chunkLoopF_irrel (cs ms co n : Nat) (sentences : List Sentence)
    (counts sums : List Nat) :
    ∀ fuel1 fuel2 pos, n - pos ≤ fuel1 → n - pos ≤ fuel2 →
      chunkLoopF cs ms co n sentences counts sums fuel1 pos =
        chunkLoopF cs ms co n sentences counts sums fuel2 pos := by
  intro fuel1
  induction fuel1 with
  | zero =>
    intro fuel2 pos h1 h2
    have hpn : ¬ pos < n := by omega
    cases fuel2 with
    | zero => rfl
    | succ k => simp [chunkLoopF, hpn]
  | succ f1 ih =>
    intro fuel2 pos h1 h2
    cases fuel2 with
    | zero =>
      have hpn : ¬ pos < n := by omega
      simp [chunkLoopF, hpn]
    | succ f2 =>
      by_cases hpn : pos < n
      · have hprog := nextPosAt_bounds cs ms co n counts sums pos hpn
        simp only [chunkLoopF, if_pos hpn]
        rw [ih f2 (nextPosAt cs ms co n counts sums pos) (by omega) (by omega)]
      · simp [chunkLoopF, hpn]

/-- One-step unfolding of the packer loop at its canonical fuel. -/
theorem chunkLoop_eq (cs ms co n : Nat) (sentences : List Sentence)
    (counts sums : List Nat) (pos : Nat) :
    chunkLoop cs ms co n sentences counts sums pos =
      if pos < n then
        (emitAt cs ms n sentences sums pos ::
            (chunkLoop cs ms co n sentences counts sums
              (nextPosAt cs ms co n counts sums pos)).1,
          warnAt cs ms n sums pos ||
            (chunkLoop cs ms co n sentences counts sums
              (nextPosAt cs ms co n counts sums pos)).2)
      else ([], false) := by
  by_cases hpn : pos < n
  · have hprog := nextPosAt_bounds cs ms co n counts sums pos hpn
    have hfuel : n - pos = (n - pos - 1) + 1 := by omega
    rw [chunkLoop, hfuel]
    simp only [chunkLoopF, if_pos hpn]
    rw [chunkLoopF_irrel cs ms co n sentences counts sums (n - pos - 1)
      (n - nextPosAt cs ms co n counts sums pos)
      (nextPosAt cs ms co n counts sums pos) (by omega) (by omega)]
    simp [chunkLoop, hpn]
  · have hz : n - pos = 0 := by omega
    rw [chunkLoop, hz]
    simp [chunkLoopF, hpn]

theorem chunkLoop_nil_iff (cs ms co n : Nat) (sentences : List Sentence)
    (counts sums : List Nat) (pos : Nat) :
    (chunkLoop cs ms co n sentences counts sums pos).1 = [] ↔ ¬ pos < n := by
  rw [chunkLoop_eq]
  by_cases hpn : pos < n <;> simp [hpn]

/-- The packer loop emits at most `n - pos` chunks: the cursor strictly
increases, so the loop terminates. -/
theorem chunkLoop_length_le (cs ms co n : Nat) (sentences : List Sentence)
    (counts sums : List Nat) :
    ∀ pos, (chunkLoop cs ms co n sentences counts sums pos).1.length ≤ n - pos := by
  have H : ∀ m pos, n - pos = m →
      (chunkLoop cs ms co n sentences counts sums pos).1.length ≤ n - pos := by
    intro m
    induction m using Nat.strong_induction_on with
    | _ m ih =>
      intro pos hm
      rw [chunkLoop_eq]
      by_cases hpn : pos < n
      · have hprog := nextPosAt_bounds cs ms co n counts sums pos hpn
        have hrec := ih (n - nextPosAt cs ms co n counts sums pos) (by omega) _ rfl
        simp only [if_pos hpn, List.length_cons]
        omega
      · simp [hpn]
  intro pos
  exact H (n - pos) pos rfl

/-- Every chunk the loop emits is `emitAt` at some cursor `pos < n`; in
particular its token count is the exact sum of its constituents' token
counts. -/
theorem chunkLoop_mem (cs ms co n : Nat) (sentences : List Sentence)
    (counts sums : List Nat) :
    ∀ pos c, c ∈ (chunkLoop cs ms co n sentences counts sums pos).1 →
      ∃ q, pos ≤ q ∧ q < n ∧ c = emitAt cs ms n sentences sums q := by
  have H : ∀ m pos, n - pos = m → ∀ c,
      c ∈ (chunkLoop cs ms co n sentences counts sums pos).1 →
      ∃ q, pos ≤ q ∧ q < n ∧ c = emitAt cs ms n sentences sums q := by
    intro m
    induction m using Nat.strong_induction_on with
    | _ m ih =>
      intro pos hm c hc
      rw [chunkLoop_eq] at hc
      by_cases hpn : pos < n
      · simp only [if_pos hpn, List.mem_cons] at hc
        rcases hc with hc | hc
        · exact ⟨pos, Nat.le_refl pos, hpn, hc⟩
        · have hprog := nextPosAt_bounds cs ms co n counts sums pos hpn
          obtain ⟨q, hq1, hq2, hq3⟩ :=
            ih (n - nextPosAt cs ms co n counts sums pos) (by omega) _ rfl c hc
          exact ⟨q, by omega, hq2, hq3⟩
      · simp [hpn] at hc
  intro pos c hc
  exact H (n - pos) pos rfl c hc

theorem emitAt_sentences (cs ms n : Nat) (sentences : List Sentence) (sums : List Nat)
    (pos : Nat) :
    (emitAt cs ms n sentences sums pos).sentences =
      (sentences.drop pos).take (splitIdxAt cs ms n sums pos - pos) := rfl

theorem emitAt_token_count (cs ms n : Nat) (sentences : List Sentence) (sums : List Nat)
    (pos : Nat) :
    (emitAt cs ms n sentences sums pos).token_count =
      (((sentences.drop pos).take (splitIdxAt cs ms n sums pos - pos)).map
        (fun s => s.token_count)).sum := rfl

theorem emitAt_sentences_length (cs ms n : Nat) (sentences : List Sentence)
    (sums : List Nat) (pos : Nat) (hn : n = sentences.length) (hpn : pos < n) :
    (emitAt cs ms n sentences sums pos).sentences.length =
      splitIdxAt cs ms n sums pos - pos := by
  have hb := splitIdxAt_bounds cs ms n sums pos hpn
  rw [emitAt_sentences, List.length_take, List.length_drop]
  omega

/-- The slice token sum of a chunk equals `takeSum` of the count list. -/
theorem emitAt_token_count_takeSum (cs ms n : Nat) (sentences : List Sentence)
    (counts sums : List Nat) (pos : Nat)
    (hcounts : counts = sentences.map (fun s => s.token_count)) :
    (emitAt cs ms n sentences sums pos).token_count =
      takeSum counts pos (splitIdxAt cs ms n sums pos) := by
  rw [emitAt_token_count, takeSum, hcounts, List.map_take, List.map_drop]

/-! ## Helper lemmas: the raw split index against the cumulative sums -/

theorem rawSplitIdx_strict (cs n : Nat) (counts : List Nat) (pos : Nat)
    (hn : n = counts.length) (hpn : pos < n)
    (hne : rawSplitIdx cs n (cumsum counts) pos ≠ pos + 1) :
    takeSum counts pos (rawSplitIdx cs n (cumsum counts) pos) < cs := by
  have hb := rawSplitIdx_bounds cs n (cumsum counts) pos hpn
  set sums := cumsum counts with hsums
  set si := rawSplitIdx cs n sums pos with hsi
  set target := sums.getD pos 0 + cs with htarget
  set bl := bisectLeft sums target with hbl
  have hdef : si = max (min (bl - 1) n) (pos + 1) := rfl
  have hsibl : si ≤ bl - 1 := by
    by_contra hcon
    exact hne (by omega)
  have hblpos : 1 ≤ bl := by omega
  have hlt : sums.getD si 0 < target :=
    bisectLeftFrom_lt sums target 0 si (Nat.zero_le si) (by rw [hbl, bisectLeft] at *; omega)
  have hmono : sums.getD pos 0 ≤ sums.getD si 0 := by
    rw [hsums]
    exact cumsum_mono counts (by omega) (by omega)
  rw [takeSum_eq counts (by omega) (by omega), ← hsums]
  omega

theorem rawSplitIdx_maximal (cs n : Nat) (counts : List Nat) (pos : Nat)
    (hn : n = counts.length) (hpn : pos < n)
    (hlt : rawSplitIdx cs n (cumsum counts) pos < n) :
    cs ≤ takeSum counts pos (rawSplitIdx cs n (cumsum counts) pos + 1) := by
  have hb := rawSplitIdx_bounds cs n (cumsum counts) pos hpn
  set sums := cumsum counts with hsums
  set si := rawSplitIdx cs n sums pos with hsi
  set target := sums.getD pos 0 + cs with htarget
  set bl := bisectLeft sums target with hbl
  have hlen : sums.length = n + 1 := by rw [hsums, cumsum_length, hn]
  have hdef : si = max (min (bl - 1) n) (pos + 1) := rfl
  have hblle : bl ≤ si + 1 := by omega
  have hblin : bl < sums.length := by omega
  have hge : target ≤ sums.getD bl 0 := by
    rw [hbl, bisectLeft]
    exact bisectLeftFrom_ge sums target 0 (by rw [bisectLeft] at hbl; rw [← hbl]; exact hblin)
  have hmono : sums.getD bl 0 ≤ sums.getD (si + 1) 0 := by
    rw [hsums]
    exact cumsum_mono counts hblle (by omega)
  have hmono2 : sums.getD pos 0 ≤ sums.getD (si + 1) 0 := by
    rw [hsums]
    exact cumsum_mono counts (by omega) (by omega)
  rw [takeSum_eq counts (by omega) (by omega), ← hsums]
  omega

/-! ## Helper lemmas: overlap walk mass -/

theorem massRange_nil (l : List Nat) (a b : Nat) (h : b ≤ a) : massRange l a b = 0 := by
  unfold massRange
  have : b - a = 0 := by omega
  simp [this]

theorem massRange_succ (l : List Nat) (a b : Nat) (hab : a ≤ b) (hb : b < l.length) :
    massRange l a (b + 1) = massRange l a b + (l.getD b 0 + 1) := by
  unfold massRange
  have h1 : b + 1 - a = (b - a) + 1 := by omega
  rw [h1, List.take_succ]
  have h2 : (l.drop a)[b - a]? = some (l.getD b 0) := by
    rw [List.getElem?_drop]
    have hba : a + (b - a) = b := by omega
    rw [hba, List.getElem?_eq_getElem hb, List.getD_eq_getElem?_getD,
      List.getElem?_eq_getElem hb]
    rfl
  rw [h2]
  simp

theorem sum_le_map_succ_sum (m : List Nat) : m.sum ≤ (m.map (fun c => c + 1)).sum := by
  induction m with
  | nil => simp
  | cons a t ih => simp; omega

theorem takeSum_le_massRange (l : List Nat) (a b : Nat) : takeSum l a b ≤ massRange l a b := by
  unfold takeSum massRange
  exact sum_le_map_succ_sum _

/-- The accumulated overlap of the backward walk never exceeds
`chunk_overlap`: starting from `oidx` with accumulated `otok ≤ co`, the
mass of the sentences the walk accepts (positions `result + 1` to `oidx`)
plus `otok` stays within `co`. -/
theorem owalk_mass (co : Nat) (counts : List Nat) (pos : Nat) :
    ∀ oidx otok, otok ≤ co → oidx < counts.length →
      otok + massRange counts (owalk co counts pos oidx otok + 1) (oidx + 1) ≤ co := by
  intro oidx
  induction oidx with
  | zero =>
    intro otok h hlen
    rw [owalk, massRange_nil counts 1 1 (Nat.le_refl 1)]
    omega
  | succ k ih =>
    intro otok h hlen
    unfold owalk
    split
    · dsimp only
      split
      · rw [massRange_nil counts (k + 1 + 1) (k + 1 + 1) (Nat.le_refl _)]
        omega
      · next h1 h2 =>
        have hnt : otok + counts.getD (k + 1) 0 + 1 ≤ co := by omega
        have hle := owalk_le co counts pos k (otok + counts.getD (k + 1) 0 + 1)
        have hrec := ih (otok + counts.getD (k + 1) 0 + 1) hnt (by omega)
        have hsplit := massRange_succ counts
          (owalk co counts pos k (otok + counts.getD (k + 1) 0 + 1) + 1) (k + 1)
          (by omega) hlen
        omega
    · rw [massRange_nil counts (k + 1 + 1) (k + 1 + 1) (Nat.le_refl _)]
      omega

/-! ## Helper lemmas: character content through the splitter -/

theorem isPrefixOf_eq_append :
    ∀ (old t : List Char), old.isPrefixOf t = true → t = old ++ t.drop old.length := by
  intro old
  induction old with
  | nil => intro t _; simp
  | cons a as ih =>
    intro t h
    cases t with
    | nil => simp [List.isPrefixOf] at h
    | cons b bs =>
      simp only [List.isPrefixOf, Bool.and_eq_true, beq_iff_eq] at h
      obtain ⟨hab, hpre⟩ := h
      have := ih bs hpre
      simp only [List.length_cons, List.drop_succ_cons, List.cons_append]
      rw [hab, ← this]

/-- Replacing `old` by `new` preserves any character filter on which the
two agree (used with the filter that removes the sentinel). -/
theorem listReplaceF_filter (old new : List Char) (p : Char → Bool)
    (hpn : new.filter p = old.filter p) :
    ∀ fuel s, (listReplaceF old new fuel s).filter p = s.filter p := by
  intro fuel
  induction fuel with
  | zero =>
    intro s
    cases s <;> rfl
  | succ f ih =>
    intro s
    cases s with
    | nil => rfl
    | cons a t =>
      rw [listReplaceF]
      split
      · next hcond =>
        obtain ⟨hne, hpre⟩ := hcond
        have hsplit := isPrefixOf_eq_append old (a :: t) hpre
        have hdrop : (a :: t).drop old.length = t.drop (old.length - 1) := by
          cases old with
          | nil => exact absurd rfl hne
          | cons o os => simp
        rw [List.filter_append, ih, hpn]
        conv_rhs => rw [hsplit]
        rw [List.filter_append, hdrop]
      · next hcond =>
        rw [List.filter_cons, List.filter_cons]
        cases hp : p a <;> simp [hp, ih]

theorem markDelim_filter (mode : IncludeDelim) (sep : Char) (d t : List Char)
    (hmode : mode = IncludeDelim.prev ∨ mode = IncludeDelim.next) :
    (markDelim mode sep d t).filter (fun c => c ≠ sep) = t.filter (fun c => c ≠ sep) := by
  rcases hmode with h | h <;> subst h
  · unfold markDelim listReplace
    apply listReplaceF_filter
    rw [List.filter_append]
    simp
  · unfold markDelim listReplace
    apply listReplaceF_filter
    rw [List.filter_append]
    simp

theorem markAll_filter (mode : IncludeDelim) (sep : Char) (delims : List (List Char))
    (hmode : mode = IncludeDelim.prev ∨ mode = IncludeDelim.next) :
    ∀ t : List Char,
      (markAll mode sep delims t).filter (fun c => c ≠ sep) = t.filter (fun c => c ≠ sep) := by
  induction delims with
  | nil => intro t; rfl
  | cons d ds ih =>
    intro t
    unfold markAll at *
    rw [List.foldl_cons, ih, markDelim_filter mode sep d t hmode]

theorem splitSep_ne_nil (sep : Char) : ∀ s : List Char, splitSep sep s ≠ [] := by
  intro s
  induction s with
  | nil => simp [splitSep]
  | cons a t ih =>
    rw [splitSep]
    split
    · simp
    · split
      · simp
      · simp

theorem splitSep_flatten (sep : Char) :
    ∀ s : List Char, (splitSep sep s).flatten = s.filter (fun c => c ≠ sep) := by
  intro s
  induction s with
  | nil => rfl
  | cons a t ih =>
    rw [splitSep, List.filter_cons]
    split
    · next ha =>
      subst ha
      simp only [List.flatten_cons, List.nil_append, ih]
      simp
    · next ha =>
      have hd : decide (a ≠ sep) = true := by simpa using ha
      rw [hd]
      cases hsp : splitSep sep t with
      | nil => exact absurd hsp (splitSep_ne_nil sep t)
      | cons u us =>
        simp only [List.flatten_cons, List.cons_append]
        rw [← List.flatten_cons, ← hsp, ih]
        simp

theorem filter_nonempty_flatten (l : List (List Char)) :
    (l.filter (fun s => s ≠ [])).flatten = l.flatten := by
  induction l with
  | nil => rfl
  | cons a t ih =>
    rw [List.filter_cons]
    by_cases ha : a = []
    · rw [if_neg (by simp [ha]), ih, ha]
      rfl
    · rw [if_pos (by simp [ha]), List.flatten_cons, List.flatten_cons, ih]

theorem mergeStep_flatten (minChars : Nat) (st : List Char × List (List Char))
    (s : List Char) :
    (mergeStep minChars st s).2.flatten ++ (mergeStep minChars st s).1 =
      st.2.flatten ++ st.1 ++ s := by
  unfold mergeStep
  by_cases hA : s.length < minChars
  · simp only [if_pos hA]
    split
    · simp [List.append_assoc]
    · simp [List.append_assoc]
  · simp only [if_neg hA]
    by_cases hB : st.1 ≠ []
    · simp only [if_pos hB]
      split
      · simp [List.append_assoc]
      · simp [List.append_assoc]
    · simp only [if_neg hB]
      have hst1 : st.1 = [] := by
        by_contra hc
        exact hB hc
      split
      · simp [hst1, List.append_assoc]
      · simp [hst1, List.append_assoc]

theorem foldl_mergeStep_flatten (minChars : Nat) :
    ∀ (splits : List (List Char)) (st : List Char × List (List Char)),
      (splits.foldl (mergeStep minChars) st).2.flatten ++
          (splits.foldl (mergeStep minChars) st).1 =
        st.2.flatten ++ st.1 ++ splits.flatten := by
  intro splits
  induction splits with
  | nil => intro st; simp
  | cons s rest ih =>
    intro st
    rw [List.foldl_cons, ih, mergeStep_flatten]
    simp [List.append_assoc]

theorem mergeShort_flatten (minChars : Nat) (splits : List (List Char)) :
    (mergeShort minChars splits).flatten = splits.flatten := by
  unfold mergeShort
  dsimp only
  have h := foldl_mergeStep_flatten minChars splits ([], [])
  split
  · next h1 =>
    rw [List.flatten_append]
    simpa using h
  · next h1 =>
    have hst1 : (splits.foldl (mergeStep minChars) ([], [])).1 = [] := by
      by_contra hc
      exact h1 hc
    rw [hst1] at h
    simpa using h

/-- The splitter loses no characters besides the delimiters' own marks:
in `prev`/`next` mode, on input free of the sentinel, the concatenation of
the produced sentences is exactly the input. -/
theorem splitText_flatten (mode : IncludeDelim) (sep : Char) (delims : List (List Char))
    (minChars : Nat) (text : List Char)
    (hmode : mode = IncludeDelim.prev ∨ mode = IncludeDelim.next)
    (hsep : sep ∉ text) :
    (splitText mode sep delims minChars text).flatten = text := by
  unfold splitText
  dsimp only
  rw [mergeShort_flatten, filter_nonempty_flatten, splitSep_flatten,
    markAll_filter mode sep delims hmode]
  exact List.filter_eq_self.mpr (fun a ha => by
    simp only [decide_eq_true_eq]
    intro hcon
    exact hsep (hcon ▸ ha))

theorem buildSentences_texts (tok : List Char → Nat) :
    ∀ (ts : List (List Char)) (pos : Nat),
      (buildSentences tok pos ts).map (fun s => s.text) = ts := by
  intro ts
  induction ts with
  | nil => intro pos; rfl
  | cons t rest ih =>
    intro pos
    rw [buildSentences, List.map_cons, ih]

theorem buildSentences_length (tok : List Char → Nat) :
    ∀ (ts : List (List Char)) (pos : Nat), (buildSentences tok pos ts).length = ts.length := by
  intro ts
  induction ts with
  | nil => intro pos; rfl
  | cons t rest ih =>
    intro pos
    rw [buildSentences, List.length_cons, ih, List.length_cons]

/-- With `chunk_overlap = 0` the emitted chunks' constituent texts tile the
sentence list from the cursor on. -/
theorem chunkLoop_texts_cover (cs ms n : Nat) (sentences : List Sentence)
    (counts sums : List Nat) (hn : n = sentences.length) :
    ∀ pos, ((chunkLoop cs ms 0 n sentences counts sums pos).1.map
        (fun c => c.text)).flatten =
      ((sentences.drop pos).map (fun s => s.text)).flatten := by
  have H : ∀ m pos, n - pos = m →
      ((chunkLoop cs ms 0 n sentences counts sums pos).1.map (fun c => c.text)).flatten =
        ((sentences.drop pos).map (fun s => s.text)).flatten := by
    intro m
    induction m using Nat.strong_induction_on with
    | _ m ih =>
      intro pos hm
      rw [chunkLoop_eq]
      by_cases hpn : pos < n
      · have hprog := nextPosAt_bounds cs ms 0 n counts sums pos hpn
        have hsib := splitIdxAt_bounds cs ms n sums pos hpn
        have hnp : nextPosAt cs ms 0 n counts sums pos = splitIdxAt cs ms n sums pos := by
          unfold nextPosAt
          simp
        simp only [if_pos hpn, List.map_cons, List.flatten_cons]
        rw [ih (n - nextPosAt cs ms 0 n counts sums pos) (by omega) _ rfl]
        rw [hnp]
        set si := splitIdxAt cs ms n sums pos with hsi
        show (emitAt cs ms n sentences sums pos).text ++
            ((sentences.drop si).map (fun s => s.text)).flatten = _
        have htext : (emitAt cs ms n sentences sums pos).text =
            (((sentences.drop pos).take (si - pos)).map (fun s => s.text)).flatten := rfl
        rw [htext]
        rw [← List.flatten_append, ← List.map_append]
        congr 2
        have hdd : sentences.drop si = (sentences.drop pos).drop (si - pos) := by
          rw [List.drop_drop]
          congr 1
          omega
        rw [hdd, List.take_append_drop]
      · have hdrop : sentences.drop pos = [] :=
          List.drop_of_length_le (by omega)
        simp [hpn, hdrop]
  intro pos
  exact H (n - pos) pos rfl

/-- Full sentence-path reconstruction with `chunk_overlap = 0` in
`prev`/`next` mode on sentinel-free input. -/
theorem sentenceChunk_reconstruct (cfg : SCfg) (tok : List Char → Nat) (text : List Char)
    (hmode : cfg.include_delim = IncludeDelim.prev ∨ cfg.include_delim = IncludeDelim.next)
    (hco : cfg.chunk_overlap = 0)
    (hsep : sepChar ∉ text)
    (hws : ¬ text.all Char.isWhitespace) :
    ((sentenceChunk cfg tok text).1.map (fun c => c.text)).flatten = text := by
  unfold sentenceChunk
  rw [if_neg (by simpa using hws)]
  dsimp only
  have hsplit := splitText_flatten cfg.include_delim sepChar cfg.delim
    cfg.min_characters_per_sentence text hmode hsep
  have htne : text ≠ [] := by
    intro hcon
    subst hcon
    simp at hws
  have hts : splitText cfg.include_delim sepChar cfg.delim
      cfg.min_characters_per_sentence text ≠ [] := by
    intro hcon
    rw [hcon] at hsplit
    exact htne hsplit.symm
  have hsne : prepareSentences cfg tok text ≠ [] := by
    unfold prepareSentences
    cases hc : splitText cfg.include_delim sepChar cfg.delim
        cfg.min_characters_per_sentence text with
    | nil => exact absurd hc hts
    | cons u us => simp [buildSentences]
  rw [if_neg hsne]
  unfold sentencePack
  rw [hco]
  rw [chunkLoop_texts_cover _ _ _ _ _ _ rfl 0]
  rw [List.drop_zero]
  unfold prepareSentences
  rw [buildSentences_texts]
  exact hsplit

/-! ## Helper lemmas: pass-2 coalescing of the syntax grouper -/

theorem p2index_bounds (cs glen : Nat) (cum : List Nat) (pos : Nat) (hpos : pos < glen) :
    pos < p2index cs glen cum pos ∧ p2index cs glen cum pos ≤ glen := by
  unfold p2index
  dsimp only
  by_cases h0 : bisectLeftFrom cum (cum.getD pos 0 + cs) pos - 1 = pos
  · rw [if_pos h0]
    by_cases h2 : min (pos + 1) glen ≤ pos
    · rw [if_pos h2]
      omega
    · rw [if_neg h2]
      omega
  · rw [if_neg h0]
    by_cases h2 : min (bisectLeftFrom cum (cum.getD pos 0 + cs) pos - 1) glen ≤ pos
    · rw [if_pos h2]
      omega
    · rw [if_neg h2]
      omega

theorem getD_mem_of_lt (l : List Nat) (i : Nat) (hi : i < l.length) : l.getD i 0 ∈ l := by
  rw [List.getD_eq_getElem?_getD, List.getElem?_eq_getElem hi]
  exact List.getElem_mem hi

/-- Each pass-2 merge boundary either takes a single group or lands
strictly inside the bisect range, where the cumulative sum is still below
the target. -/
theorem p2index_spec (cs glen : Nat) (cum : List Nat) (pos : Nat) (hpos : pos < glen) :
    p2index cs glen cum pos = pos + 1 ∨
      cum.getD (p2index cs glen cum pos) 0 < cum.getD pos 0 + cs := by
  unfold p2index
  set target := cum.getD pos 0 + cs with htarget
  set blf := bisectLeftFrom cum target pos with hblf
  have hblo := le_bisectLeftFrom cum target pos
  dsimp only
  by_cases h2 : min (if blf - 1 = pos then pos + 1 else blf - 1) glen ≤ pos
  · rw [if_pos h2]
    exact Or.inl rfl
  · rw [if_neg h2]
    by_cases h0 : blf - 1 = pos
    · rw [if_pos h0] at h2 ⊢
      left
      omega
    · rw [if_neg h0] at h2 ⊢
      right
      have hle : min (blf - 1) glen ≤ blf - 1 := Nat.min_le_left _ _
      have hgt : pos < min (blf - 1) glen := by omega
      have hlt : min (blf - 1) glen < blf := by omega
      exact bisectLeftFrom_lt cum target pos (min (blf - 1) glen) (by omega) hlt

theorem p2loopF_lengths (cs : Nat) (gs : List (List SNode)) (cum : List Nat) :
    ∀ fuel pos, (p2loopF cs gs cum fuel pos).1.length = (p2loopF cs gs cum fuel pos).2.length := by
  intro fuel
  induction fuel with
  | zero => intro pos; rfl
  | succ f ih =>
    intro pos
    rw [p2loopF]
    split
    · dsimp only
      split
      · rfl
      · simp [ih]
    · rfl

/-- Pass-2 never produces a merged count above `chunk_size` when all input
counts are within `chunk_size`. -/
theorem p2loopF_counts_le (cs : Nat) (gs : List (List SNode)) (cnts : List Nat)
    (hgl : gs.length = cnts.length) (hc : ∀ c ∈ cnts, c ≤ cs) :
    ∀ fuel pos c, c ∈ (p2loopF cs gs (cumsum cnts) fuel pos).2 → c ≤ cs := by
  intro fuel
  induction fuel with
  | zero => intro pos c hmem; simp [p2loopF] at hmem
  | succ f ih =>
    intro pos c hmem
    rw [p2loopF] at hmem
    by_cases hpos : pos < gs.length
    · rw [if_pos hpos] at hmem
      by_cases hsl : ((gs.drop pos).take (p2index cs gs.length (cumsum cnts) pos - pos)).isEmpty
      · rw [if_pos hsl] at hmem
        simp at hmem
      · rw [if_neg hsl] at hmem
        simp only [List.mem_cons] at hmem
        rcases hmem with hmem | hmem
        · subst hmem
          have hib := p2index_bounds cs gs.length (cumsum cnts) pos hpos
          rcases p2index_spec cs gs.length (cumsum cnts) pos hpos with hcase | hcase
          · rw [hcase]
            have hps : pos < cnts.length := by omega
            rw [cumsum_getD_succ_sub cnts hps]
            exact hc _ (getD_mem_of_lt cnts pos hps)
          · have hmono : (cumsum cnts).getD pos 0 ≤
                (cumsum cnts).getD (p2index cs gs.length (cumsum cnts) pos) 0 :=
              cumsum_mono cnts (by omega) (by omega)
            omega
        · exact ih _ _ hmem
    · rw [if_neg hpos] at hmem
      simp at hmem

theorem isEmpty_false_iff (α : Type) (l : List α) : (¬ l.isEmpty) ↔ l ≠ [] := by
  cases l <;> simp

/-- Pass-2 conserves the total token count: the merged counts sum to the
sum of the input counts. -/
theorem p2loopF_sum (cs : Nat) (gs : List (List SNode)) (cnts : List Nat)
    (hgl : gs.length = cnts.length) :
    ∀ fuel pos, gs.length - pos ≤ fuel → pos ≤ gs.length →
      ((p2loopF cs gs (cumsum cnts) fuel pos).2).sum =
        (cumsum cnts).getD gs.length 0 - (cumsum cnts).getD pos 0 := by
  intro fuel
  induction fuel with
  | zero =>
    intro pos hf hp
    have hpe : pos = gs.length := by omega
    subst hpe
    simp [p2loopF]
  | succ f ih =>
    intro pos hf hp
    rw [p2loopF]
    by_cases hpos : pos < gs.length
    · rw [if_pos hpos]
      have hib := p2index_bounds cs gs.length (cumsum cnts) pos hpos
      have hslne : ¬ ((gs.drop pos).take
          (p2index cs gs.length (cumsum cnts) pos - pos)).isEmpty := by
        rw [isEmpty_false_iff]
        intro hcon
        have : ((gs.drop pos).take (p2index cs gs.length (cumsum cnts) pos - pos)).length
            = 0 := by rw [hcon]; rfl
        rw [List.length_take, List.length_drop] at this
        omega
      rw [if_neg hslne]
      dsimp only
      simp only [List.sum_cons]
      rw [ih _ (by omega) (by omega)]
      have hmono1 : (cumsum cnts).getD pos 0 ≤
          (cumsum cnts).getD (p2index cs gs.length (cumsum cnts) pos) 0 :=
        cumsum_mono cnts (by omega) (by omega)
      have hmono2 : (cumsum cnts).getD (p2index cs gs.length (cumsum cnts) pos) 0 ≤
          (cumsum cnts).getD gs.length 0 :=
        cumsum_mono cnts (by omega) (by omega)
      omega
    · rw [if_neg hpos]
      have hpe : pos = gs.length := by omega
      subst hpe
      simp

theorem pass2_counts_le (cs : Nat) (gs : List (List SNode)) (cnts : List Nat)
    (hgl : gs.length = cnts.length) (hc : ∀ c ∈ cnts, c ≤ cs) :
    ∀ c ∈ (pass2 cs (gs, cnts)).2, c ≤ cs := by
  intro c hmem
  exact p2loopF_counts_le cs gs cnts hgl hc _ _ c hmem

theorem pass2_sum (cs : Nat) (gs : List (List SNode)) (cnts : List Nat)
    (hgl : gs.length = cnts.length) :
    ((pass2 cs (gs, cnts)).2).sum = cnts.sum := by
  unfold pass2
  dsimp only
  rw [p2loopF_sum cs gs cnts hgl gs.length 0 (by omega) (by omega)]
  rw [cumsum_getD cnts gs.length (by omega), cumsum_getD cnts 0 (by omega)]
  simp [hgl]

theorem pass2_lengths (cs : Nat) (gs : List (List SNode)) (cnts : List Nat) :
    (pass2 cs (gs, cnts)).1.length = (pass2 cs (gs, cnts)).2.length :=
  p2loopF_lengths cs gs (cumsum cnts) gs.length 0

/-! ## Helper lemmas: pass-1 invariants via the weight measure -/

theorem nodeW_children (sb eb : Nat) (tx : List Nat) (ch : List SNode) :
    listW ch < nodeW (SNode.mk sb eb tx ch) := by
  rw [nodeW]
  omega

theorem listW_cons (c : SNode) (rest : List SNode) :
    listW (c :: rest) = 1 + nodeW c + listW rest := rfl

/-- All pass-1 (and, after coalescing, pass-2) group token counts stay
within `chunk_size`, at every level of the recursion: an oversized child
is never emitted as a count of its own (it is recursed into, or dropped
when childless), and the running count only grows while within budget. -/
theorem p1core_counts_le_aux (cs : Nat) (tok : List Nat → Nat) :
    ∀ (w : Nat) (chs : List SNode), listW chs ≤ w →
      ∀ (gs : List (List SNode)) (cnts : List Nat) (cur : List SNode) (curc : Nat),
        (∀ c ∈ cnts, c ≤ cs) → curc ≤ cs →
        (∀ c ∈ (p1core cs tok chs gs cnts cur curc).2, c ≤ cs) ∧
        (gs.length = cnts.length →
          (p1core cs tok chs gs cnts cur curc).1.length =
            (p1core cs tok chs gs cnts cur curc).2.length) := by
  intro w
  induction w with
  | zero =>
    intro chs hw
    cases chs with
    | nil =>
      intro gs cnts cur curc hc hcur
      constructor
      · intro c hmem
        rw [p1core] at hmem
        split at hmem
        · exact hc c hmem
        · rw [List.mem_append] at hmem
          rcases hmem with hmem | hmem
          · exact hc c hmem
          · simp at hmem
            omega
      · intro hlen
        rw [p1core]
        split
        · exact hlen
        · simp [hlen]
    | cons c rest =>
      rw [listW_cons] at hw
      omega
  | succ v ih =>
    intro chs hw
    cases chs with
    | nil =>
      intro gs cnts cur curc hc hcur
      constructor
      · intro c hmem
        rw [p1core] at hmem
        split at hmem
        · exact hc c hmem
        · rw [List.mem_append] at hmem
          rcases hmem with hmem | hmem
          · exact hc c hmem
          · simp at hmem
            omega
      · intro hlen
        rw [p1core]
        split
        · exact hlen
        · simp [hlen]
    | cons child rest =>
      intro gs cnts cur curc hc hcur
      rw [listW_cons] at hw
      have hchw : listW child.children ≤ v := by
        cases child with
        | mk sb eb tx ch =>
          have := nodeW_children sb eb tx ch
          simp only [SNode.children]
          omega
      have hrw : listW rest ≤ v := by omega
      rw [p1core]
      dsimp only
      by_cases hover : cs < tok child.text
      · rw [if_pos hover]
        have hsub : (∀ c ∈ (groupChildNodes cs tok child).2, c ≤ cs) ∧
            (groupChildNodes cs tok child).1.length =
              (groupChildNodes cs tok child).2.length := by
          cases child with
          | mk sb eb tx ch =>
            rw [groupChildNodes]
            by_cases hche : ch.isEmpty
            · rw [if_pos hche]
              exact ⟨by intro c h; simp at h, rfl⟩
            · rw [if_neg hche]
              have hp1 := ih ch (by simpa [SNode.children] using hchw) [] [] [] 0
                (by intro c h; simp at h) (Nat.zero_le cs)
              constructor
              · have hle := pass2_counts_le cs (p1core cs tok ch [] [] [] 0).1
                  (p1core cs tok ch [] [] [] 0).2 (hp1.2 rfl) hp1.1
                intro c h
                exact hle c h
              · have := pass2_lengths cs (p1core cs tok ch [] [] [] 0).1
                  (p1core cs tok ch [] [] [] 0).2
                exact this
        by_cases hcur0 : cur.isEmpty
        · rw [if_pos hcur0, if_pos hcur0]
          exact ih rest hrw _ _ [] 0
            (by
              intro c hmem
              rw [List.mem_append] at hmem
              rcases hmem with hmem | hmem
              · exact hc c hmem
              · exact hsub.1 c hmem)
            (Nat.zero_le cs)
            |>.imp id (fun h hlen => h (by simp [hlen, hsub.2]))
        · rw [if_neg hcur0, if_neg hcur0]
          exact ih rest hrw _ _ [] 0
            (by
              intro c hmem
              rw [List.mem_append] at hmem
              rcases hmem with hmem | hmem
              · rw [List.mem_append] at hmem
                rcases hmem with hmem | hmem
                · exact hc c hmem
                · simp at hmem
                  omega
              · exact hsub.1 c hmem)
            (Nat.zero_le cs)
            |>.imp id (fun h hlen => h (by simp [hlen, hsub.2]))
      · rw [if_neg hover]
        by_cases hfit : cs < curc + tok child.text
        · rw [if_pos hfit]
          exact ih rest hrw _ _ [child] (tok child.text)
            (by
              intro c hmem
              rw [List.mem_append] at hmem
              rcases hmem with hmem | hmem
              · exact hc c hmem
              · simp at hmem
                omega)
            (by omega)
            |>.imp id (fun h hlen => h (by simp [hlen]))
        · rw [if_neg hfit]
          exact ih rest hrw _ _ (cur ++ [child]) (curc + tok child.text)
            hc (by omega)
            |>.imp id (fun h hlen => h hlen)

/-- Every token count reported by the syntax node grouper is at most
`chunk_size`. -/
theorem groupChildNodes_counts_le (cs : Nat) (tok : List Nat → Nat) (node : SNode) :
    ∀ c ∈ (groupChildNodes cs tok node).2, c ≤ cs := by
  cases node with
  | mk sb eb tx ch =>
    rw [groupChildNodes]
    by_cases hche : ch.isEmpty
    · rw [if_pos hche]
      intro c h
      simp at h
    · rw [if_neg hche]
      have hp1 := p1core_counts_le_aux cs tok (listW ch) ch (Nat.le_refl _) [] [] [] 0
        (by intro c h; simp at h) (Nat.zero_le cs)
      exact pass2_counts_le cs (p1core cs tok ch [] [] [] 0).1
        (p1core cs tok ch [] [] [] 0).2 (hp1.2 rfl) hp1.1

/-! ## Helper lemmas: byte-level reconstruction -/

theorem pySlice_append (l : List Nat) (a b c : Nat) (hab : a ≤ b) (hbc : b ≤ c)
    (hc : c ≤ l.length) :
    pySlice l a b ++ pySlice l b c = pySlice l a c := by
  unfold pySlice
  have hdec : l.take c = l.take b ++ (l.drop b).take (c - b) := by
    have hc2 : c = b + (c - b) := by omega
    conv_lhs => rw [hc2, List.take_add]
  rw [hdec]
  rw [List.drop_append_eq_append_drop, List.drop_append_eq_append_drop]
  have hlb : (l.take b).length = b := List.length_take_of_le (by omega)
  rw [hlb]
  have h1 : (l.take b).drop b = [] := List.drop_of_length_le (by omega)
  have hbb : b - b = 0 := by omega
  have hab0 : a - b = 0 := by omega
  rw [h1, hbb, hab0, List.drop_zero, List.nil_append]

theorem pySlice_full (l : List Nat) : pySlice l 0 l.length = l := by
  unfold pySlice
  rw [List.take_length, List.drop_zero]

theorem getLastD_mem (α : Type) :
    ∀ (l : List α) (d : α), l ≠ [] → l.getLastD d ∈ l := by
  intro l
  induction l with
  | nil => intro d h; exact absurd rfl h
  | cons a t ih =>
    intro d _
    cases ht : t with
    | nil =>
      subst ht
      simp [List.getLastD_cons]
    | cons b u =>
      rw [List.getLastD_cons]
      have hmem := ih a (by rw [ht]; simp)
      rw [ht] at hmem
      exact List.mem_cons_of_mem a hmem

theorem getLast?_eq_getLastD (α : Type) :
    ∀ (l : List α) (d : α), l ≠ [] → l.getLast? = some (l.getLastD d) := by
  intro l
  induction l with
  | nil => intro d h; exact absurd rfl h
  | cons a t ih =>
    intro d _
    cases ht : t with
    | nil =>
      subst ht
      simp [List.getLastD_cons]
    | cons b u =>
      subst ht
      rw [List.getLast?_cons_cons, List.getLastD_cons]
      exact ih a (by simp)

theorem flatten_append_last (α : Type) :
    ∀ (l : List (List α)) (c : List α) (s : List α), l.getLast? = some c →
      (l.dropLast ++ [c ++ s]).flatten = l.flatten ++ s := by
  intro l
  induction l with
  | nil => intro c s h; simp at h
  | cons a t ih =>
    intro c s h
    cases t with
    | nil =>
      simp only [List.getLast?_singleton] at h
      cases h
      simp
    | cons b u =>
      rw [List.getLast?_cons_cons] at h
      have hrec := ih c s h
      rw [List.dropLast_cons₂, List.cons_append, List.flatten_cons, hrec]
      simp [List.flatten_cons, List.append_assoc]

/-- The per-group reconstruction loop succeeds on a well-formed group list
and yields slices that concatenate to the bytes from the first group's
start to the last group's end. -/
theorem reconLoop_spec (obytes : List Nat) :
    ∀ ngs : List (List SNode), ngs ≠ [] →
      (∀ g ∈ ngs, ¬ g.isEmpty ∧ groupStart g ≤ groupEnd g ∧ groupEnd g ≤ obytes.length) →
      ngs.Pairwise (fun g h => groupStart g ≤ groupStart h) →
      ∃ cts, reconLoop obytes ngs = some cts ∧ cts ≠ [] ∧
        cts.flatten = pySlice obytes (groupStart (ngs.headD [])) (groupEnd (ngs.getLastD [])) := by
  intro ngs
  induction ngs with
  | nil => intro h; exact absurd rfl h
  | cons g rest ih =>
    intro _ hg hsort
    have hgprop := hg g (List.mem_cons_self g rest)
    obtain ⟨hgne, hse, hel⟩ := hgprop
    rw [reconLoop]
    rw [if_neg (by simpa using hgne)]
    dsimp only
    rw [if_neg (by
      push_neg
      unfold groupStart groupEnd at hse
      exact hse)]
    rw [if_neg (by
      push_neg
      unfold groupEnd at hel
      exact hel)]
    cases rest with
    | nil =>
      refine ⟨[pySlice obytes ((g.headD dNode).start_byte) ((g.getLastD dNode).end_byte)],
        ?_, by simp, ?_⟩
      · rw [reconLoop]
        rfl
      · simp [groupStart, groupEnd]
    | cons g2 rest2 =>
      have hg2p := hg g2 (by simp)
      obtain ⟨hg2ne, hg2se, hg2el⟩ := hg2p
      obtain ⟨x, xs, hx⟩ : ∃ x xs, g2 = x :: xs := by
        cases g2 with
        | nil => simp at hg2ne
        | cons x xs => exact ⟨x, xs, rfl⟩
      subst hx
      have hhead : (x :: xs).head? = some x := rfl
      simp only [hhead]
      obtain ⟨cts2, hcts2, hcts2ne, hflat2⟩ := ih (by simp)
        (fun h hmem => hg h (List.mem_cons_of_mem g hmem))
        (List.Pairwise.of_cons hsort)
      rw [hcts2]
      refine ⟨pySlice obytes ((g.headD dNode).start_byte) (x.start_byte) :: cts2,
        rfl, by simp, ?_⟩
      simp only [List.flatten_cons, hflat2]
      have hs2 : groupStart (((x :: xs) :: rest2).headD []) = x.start_byte := by
        simp [groupStart]
      rw [hs2]
      have hlast_mem : ((x :: xs) :: rest2).getLastD [] ∈ (x :: xs) :: rest2 :=
        getLastD_mem _ _ [] (by simp)
      have hs_le_slast : x.start_byte ≤ groupStart (((x :: xs) :: rest2).getLastD []) := by
        rcases List.mem_cons.mp hlast_mem with hcase | hcase
        · rw [hcase]
          simp [groupStart]
        · have hpair := List.Pairwise.of_cons hsort
          have := (List.pairwise_cons.mp hpair).1 _ hcase
          simpa [groupStart] using this
      have hlast_prop := hg _ (List.mem_cons_of_mem g hlast_mem)
      have hslast_le : groupStart (((x :: xs) :: rest2).getLastD []) ≤
          groupEnd (((x :: xs) :: rest2).getLastD []) := hlast_prop.2.1
      have helast_le2 : groupEnd (((x :: xs) :: rest2).getLastD []) ≤ obytes.length :=
        hlast_prop.2.2
      have hstart_le : (g.headD dNode).start_byte ≤ x.start_byte := by
        have := (List.pairwise_cons.mp hsort).1 (x :: xs) (by simp)
        simpa [groupStart] using this
      have hgoal := pySlice_append obytes ((g.headD dNode).start_byte) (x.start_byte)
        (groupEnd (((x :: xs) :: rest2).getLastD [])) hstart_le (by omega) helast_le2
      rw [hgoal]
      have hheads : groupStart ((g :: (x :: xs) :: rest2).headD []) =
          (g.headD dNode).start_byte := by
        simp [groupStart]
      have hlasts : (g :: (x :: xs) :: rest2).getLastD ([] : List SNode) =
          ((x :: xs) :: rest2).getLastD [] := by
        simp [List.getLastD_cons]
      rw [hheads, hlasts]

theorem head?_eq_headD (ngs : List (List SNode)) (hne : ngs ≠ []) :
    ngs.head? = some (ngs.headD []) := by
  cases ngs with
  | nil => exact absurd rfl hne
  | cons a t => rfl

theorem head?_eq_headD_node (g : List SNode) (hne : g ≠ []) :
    g.head? = some (g.headD dNode) := by
  cases g with
  | nil => exact absurd rfl hne
  | cons a t => rfl

theorem head_start_le_last_end (ngs : List (List SNode)) (hne : ngs ≠ [])
    (hg : ∀ g ∈ ngs, groupStart g ≤ groupEnd g)
    (hsort : ngs.Pairwise (fun g h => groupStart g ≤ groupStart h)) :
    groupStart (ngs.headD []) ≤ groupEnd (ngs.getLastD []) := by
  cases ngs with
  | nil => exact absurd rfl hne
  | cons g0 rest =>
    have hmem : (g0 :: rest).getLastD [] ∈ g0 :: rest := getLastD_mem _ _ [] (by simp)
    simp only [List.headD_cons]
    rcases List.mem_cons.mp hmem with hc | hc
    · rw [hc]
      exact hg g0 (by simp)
    · have h1 := (List.pairwise_cons.mp hsort).1 _ hc
      have h2 := hg _ (List.mem_cons_of_mem g0 hc)
      exact le_trans h1 h2

/-- Full byte-for-byte reconstruction: on a non-empty well-formed sorted
group list over a non-empty buffer, `_get_texts_from_node_groups` returns
slices whose concatenation is exactly the original byte buffer (leading
bytes on the first group, gap bytes on the preceding group, trailing bytes
on the last group). -/
theorem getTexts_reconstruct (ngs : List (List SNode)) (obytes : List Nat)
    (hne : ngs ≠ []) (hbytes : obytes ≠ [])
    (hg : ∀ g ∈ ngs, ¬ g.isEmpty ∧ groupStart g ≤ groupEnd g ∧ groupEnd g ≤ obytes.length)
    (hsort : ngs.Pairwise (fun g h => groupStart g ≤ groupStart h)) :
    ∃ cts, getTextsFromNodeGroups ngs obytes = some cts ∧ cts.flatten = obytes := by
  obtain ⟨cts0, hloop, hcts0ne, hflat0⟩ := reconLoop_spec obytes ngs hne hg hsort
  set s0 := groupStart (ngs.headD []) with hs0def
  set elast := groupEnd (ngs.getLastD []) with helastdef
  have hhne : ngs.headD [] ∈ ngs := by
    cases ngs with
    | nil => exact absurd rfl hne
    | cons a t => simp
  have hlmem : ngs.getLastD [] ∈ ngs := getLastD_mem _ ngs [] hne
  have hheadne : ngs.headD [] ≠ [] := by
    have := (hg _ hhne).1
    rwa [isEmpty_false_iff] at this
  have hlastne : ngs.getLastD [] ≠ [] := by
    have := (hg _ hlmem).1
    rwa [isEmpty_false_iff] at this
  have hs0_le : s0 ≤ elast :=
    head_start_le_last_end ngs hne (fun g hgm => (hg g hgm).2.1) hsort
  have helast_le : elast ≤ obytes.length := (hg _ hlmem).2.2
  have hf0 : (ngs.headD []).head? = some ((ngs.headD []).headD dNode) :=
    head?_eq_headD_node _ hheadne
  have hf0s : ((ngs.headD []).headD dNode).start_byte = s0 := rfl
  have hll : (ngs.getLastD []).getLast? = some ((ngs.getLastD []).getLastD dNode) :=
    getLast?_eq_getLastD _ _ dNode hlastne
  have hlle : ((ngs.getLastD []).getLastD dNode).end_byte = elast := rfl
  -- stage 1: prepend the leading bytes to the first chunk
  have hstage1 : ∃ cts1,
      (if ((ngs.headD []).headD dNode).start_byte ≠ 0 then
        prependFirst (pySlice obytes 0 ((ngs.headD []).headD dNode).start_byte) cts0
      else some cts0) = some cts1 ∧
      cts1.flatten = pySlice obytes 0 elast ∧ cts1 ≠ [] := by
    by_cases hz : ((ngs.headD []).headD dNode).start_byte ≠ 0
    · rw [if_pos hz]
      obtain ⟨c, restTexts, hc⟩ : ∃ c restTexts, cts0 = c :: restTexts := by
        cases cts0 with
        | nil => exact absurd rfl hcts0ne
        | cons a t => exact ⟨a, t, rfl⟩
      subst hc
      rw [prependFirst]
      refine ⟨_, rfl, ?_, by simp⟩
      rw [List.flatten_cons, List.append_assoc, hf0s, ← List.flatten_cons, hflat0]
      exact pySlice_append obytes 0 s0 elast (Nat.zero_le s0) hs0_le helast_le
    · rw [if_neg hz]
      push_neg at hz
      rw [hf0s] at hz
      refine ⟨cts0, rfl, ?_, hcts0ne⟩
      rw [hflat0, hz]
  obtain ⟨cts1, hif1, hflat1, hcts1ne⟩ := hstage1
  -- stage 2: append the trailing bytes to the last chunk
  have hc1last : cts1.getLast? = some (cts1.getLastD []) :=
    getLast?_eq_getLastD _ cts1 [] hcts1ne
  have hstage2 : ∃ cts2,
      (if ((ngs.getLastD []).getLastD dNode).end_byte ≠ obytes.length then
        appendLast (pySlice obytes ((ngs.getLastD []).getLastD dNode).end_byte obytes.length)
          cts1
      else some cts1) = some cts2 ∧
      cts2.flatten = obytes := by
    by_cases hz : ((ngs.getLastD []).getLastD dNode).end_byte ≠ obytes.length
    · rw [if_pos hz]
      rw [appendLast, hc1last]
      refine ⟨_, rfl, ?_⟩
      rw [flatten_append_last Nat cts1 (cts1.getLastD []) _ hc1last, hflat1, hlle]
      rw [pySlice_append obytes 0 elast obytes.length (Nat.zero_le elast) helast_le
        (Nat.le_refl _)]
      exact pySlice_full obytes
    · rw [if_neg hz]
      push_neg at hz
      rw [hlle] at hz
      refine ⟨cts1, rfl, ?_⟩
      rw [hflat1, hz]
      exact pySlice_full obytes
  obtain ⟨cts2, hif2, hflat2⟩ := hstage2
  refine ⟨cts2, ?_, hflat2⟩
  unfold getTextsFromNodeGroups
  rw [if_neg hbytes]
  simp only [hloop, head?_eq_headD ngs hne, hf0, getLast?_eq_getLastD _ ngs [] hne, hll,
    Option.bind_eq_bind, Option.some_bind]
  by_cases hz1 : ((ngs.headD []).headD dNode).start_byte ≠ 0
  · rw [if_pos hz1] at hif1 ⊢
    simp only [hif1, Option.some_bind]
    by_cases hz2 : ((ngs.getLastD []).getLastD dNode).end_byte ≠ obytes.length
    · rw [if_pos hz2] at hif2 ⊢
      simp only [hif2, Option.some_bind]
      rfl
    · rw [if_neg hz2] at hif2 ⊢
      simpa using hif2
  · rw [if_neg hz1] at hif1 ⊢
    have hc1 : cts0 = cts1 := by
      simpa using hif1
    subst hc1
    by_cases hz2 : ((ngs.getLastD []).getLastD dNode).end_byte ≠ obytes.length
    · rw [if_pos hz2] at hif2 ⊢
      simp only [hif2, Option.some_bind]
      rfl
    · rw [if_neg hz2] at hif2 ⊢
      simpa using hif2

/-! ## Helper lemmas: assembled per-claim facts -/

theorem splitIdxAt_ms1 (cs n : Nat) (sums : List Nat) (pos : Nat) (h : pos < n) :
    splitIdxAt cs 1 n sums pos = rawSplitIdx cs n sums pos := by
  have hb := rawSplitIdx_bounds cs n sums pos h
  unfold splitIdxAt
  rw [if_neg (by omega)]

/-- Every chunk except the last has at least `min_sentences_per_chunk`
constituent sentences. -/
theorem chunkLoop_min_sentences (cs ms co n : Nat) (sentences : List Sentence)
    (counts sums : List Nat) (hn : n = sentences.length) :
    ∀ pos i, i + 1 < (chunkLoop cs ms co n sentences counts sums pos).1.length →
      ms ≤ (((chunkLoop cs ms co n sentences counts sums pos).1.getD i
        (mkChunk [] 0)).sentences).length := by
  have H : ∀ m pos, n - pos = m → ∀ i,
      i + 1 < (chunkLoop cs ms co n sentences counts sums pos).1.length →
      ms ≤ (((chunkLoop cs ms co n sentences counts sums pos).1.getD i
        (mkChunk [] 0)).sentences).length := by
    intro m
    induction m using Nat.strong_induction_on with
    | _ m ih =>
      intro pos hm i hi
      rw [chunkLoop_eq] at hi ⊢
      by_cases hpn : pos < n
      · rw [if_pos hpn] at hi ⊢
        have hprog := nextPosAt_bounds cs ms co n counts sums pos hpn
        cases i with
        | zero =>
          simp only [List.length_cons] at hi
          have hrestne : (chunkLoop cs ms co n sentences counts sums
              (nextPosAt cs ms co n counts sums pos)).1 ≠ [] := by
            intro hcon
            rw [hcon] at hi
            simp at hi
          have hnplt : nextPosAt cs ms co n counts sums pos < n := by
            by_contra hcon
            exact hrestne ((chunkLoop_nil_iff cs ms co n sentences counts sums _).mpr hcon)
          simp only [List.getD_cons_zero]
          rw [emitAt_sentences_length cs ms n sentences sums pos hn hpn]
          -- the insufficient-minimum branch would have ended the loop
          unfold splitIdxAt
          by_cases hforce : rawSplitIdx cs n sums pos - pos < ms
          · rw [if_pos hforce]
            by_cases henough : pos + ms ≤ n
            · rw [if_pos henough]
              omega
            · rw [if_neg henough]
              exfalso
              have hsin : splitIdxAt cs ms n sums pos = n := by
                unfold splitIdxAt
                rw [if_pos hforce, if_neg henough]
              have : nextPosAt cs ms co n counts sums pos = n := by
                unfold nextPosAt
                rw [hsin]
                rw [if_neg (by omega)]
              omega
          · rw [if_neg hforce]
            omega
        | succ j =>
          simp only [List.length_cons] at hi
          simp only [List.getD_cons_succ]
          exact ih (n - nextPosAt cs ms co n counts sums pos) (by omega) _ rfl j (by omega)
      · rw [if_neg hpn] at hi
        simp at hi
  intro pos
  exact H (n - pos) pos rfl

/-- Budget respect on the sentence path with `min_sentences_per_chunk = 1`:
every chunk is a single sentence or stays strictly below `chunk_size`. -/
theorem sentencePack_budget (cs co : Nat) (sentences : List Sentence) (c : SChunk)
    (hc : c ∈ (sentencePack cs 1 co sentences).1) :
    c.token_count ≤ cs ∨ c.sentences.length = 1 := by
  unfold sentencePack at hc
  obtain ⟨q, hq1, hq2, hq3⟩ := chunkLoop_mem cs 1 co sentences.length sentences
    (sentences.map (fun s => s.token_count)) (cumsum (sentences.map (fun s => s.token_count)))
    0 c hc
  subst hq3
  set counts := sentences.map (fun s => s.token_count) with hcounts
  have hlen : sentences.length = counts.length := by rw [hcounts, List.length_map]
  rw [emitAt_token_count_takeSum cs 1 sentences.length sentences counts (cumsum counts) q
    hcounts]
  rw [splitIdxAt_ms1 cs sentences.length (cumsum counts) q hq2]
  by_cases hone : rawSplitIdx cs sentences.length (cumsum counts) q = q + 1
  · right
    rw [emitAt_sentences_length cs 1 sentences.length sentences (cumsum counts) q rfl hq2]
    rw [splitIdxAt_ms1 cs sentences.length (cumsum counts) q hq2, hone]
    omega
  · left
    have := rawSplitIdx_strict cs sentences.length counts q hlen (by omega) hone
    omega

/-- Exact token counts: every emitted chunk's `token_count` is the sum of
its constituents' token counts. -/
theorem sentencePack_token_count_exact (cs ms co : Nat) (sentences : List Sentence)
    (c : SChunk) (hc : c ∈ (sentencePack cs ms co sentences).1) :
    c.token_count = (c.sentences.map (fun s => s.token_count)).sum := by
  unfold sentencePack at hc
  obtain ⟨q, hq1, hq2, hq3⟩ := chunkLoop_mem cs ms co sentences.length sentences
    (sentences.map (fun s => s.token_count)) (cumsum (sentences.map (fun s => s.token_count)))
    0 c hc
  subst hq3
  rfl

/-- The head chunk the loop emits at any cursor is `emitAt`, which does not
depend on `chunk_overlap`. -/
theorem chunkLoop_head (cs ms co n : Nat) (sentences : List Sentence)
    (counts sums : List Nat) (pos : Nat) (hpn : pos < n) :
    (chunkLoop cs ms co n sentences counts sums pos).1.head? =
      some (emitAt cs ms n sentences sums pos) := by
  rw [chunkLoop_eq, if_pos hpn]
  rfl

/-- The backward overlap walk: bounds, overlap mass within budget, and the
no-fit case resuming at `split_idx`. -/
theorem nextPosAt_overlap_spec (cs ms co n : Nat) (counts sums : List Nat) (pos : Nat)
    (hpn : pos < n) (hn : n = counts.length) (hco : 0 < co)
    (hsi : splitIdxAt cs ms n sums pos < n) :
    pos < nextPosAt cs ms co n counts sums pos ∧
    nextPosAt cs ms co n counts sums pos ≤ splitIdxAt cs ms n sums pos ∧
    massRange counts (nextPosAt cs ms co n counts sums pos)
      (splitIdxAt cs ms n sums pos) ≤ co ∧
    takeSum counts (nextPosAt cs ms co n counts sums pos)
      (splitIdxAt cs ms n sums pos) ≤ co ∧
    (co < counts.getD (splitIdxAt cs ms n sums pos - 1) 0 + 1 →
      nextPosAt cs ms co n counts sums pos = splitIdxAt cs ms n sums pos) := by
  have hsib := splitIdxAt_bounds cs ms n sums pos hpn
  set si := splitIdxAt cs ms n sums pos with hsidef
  have hnp : nextPosAt cs ms co n counts sums pos = owalk co counts pos (si - 1) 0 + 1 := by
    unfold nextPosAt
    rw [if_pos ⟨hco, by rw [← hsidef]; exact hsi⟩]
  have hge := owalk_ge co counts pos (si - 1) 0 (by omega)
  have hle := owalk_le co counts pos (si - 1) 0
  have hmass := owalk_mass co counts pos (si - 1) 0 (by omega) (by omega)
  have hsucc : si - 1 + 1 = si := by omega
  rw [hsucc] at hmass
  rw [hnp]
  refine ⟨by omega, by omega, ?_, ?_, ?_⟩
  · simpa using hmass
  · calc takeSum counts (owalk co counts pos (si - 1) 0 + 1) si
        ≤ massRange counts (owalk co counts pos (si - 1) 0 + 1) si :=
          takeSum_le_massRange counts _ si
      _ ≤ co := by simpa using hmass
  · intro hbig
    rcases hcase : si - 1 with _ | k
    · have hsi1 : si = 1 := by omega
      rw [owalk]
      omega
    · have hsik : si = k + 2 := by omega
      simp only [hcase] at hbig
      rw [owalk]
      by_cases hcond : pos < k + 1 ∧ 0 < co
      · rw [if_pos hcond]
        dsimp only
        rw [if_pos (by omega)]
        omega
      · rw [if_neg hcond]
        omega

/-! ## Claims -/

/-- Claim C1: the spec says an oversized child with no children of its own
is emitted as its own single-element group carrying its full token count,
never dropped.  The code instead returns `([], [])` from the recursion
into a childless node (the `TODO` base case of `_group_child_nodes`), so
the oversized leaf child, here with token count `15 > chunk_size = 10`,
vanishes from the output group sequence entirely. -/
theorem c1_oversized_leaf_child_dropped :
    10 < (List.replicate 15 0).length ∧
    groupChildNodes 10 (fun t => t.length)
      (SNode.mk 0 15 (List.replicate 15 0) [SNode.mk 0 15 (List.replicate 15 0) []]) =
      ([], []) :=
  ⟨by decide, rfl⟩

/-- Claim C2 (counterexample): with `include_delim = None` the delimiter
is replaced by the sentinel outright, so concatenating the chunk texts of
`"a.b"` yields `"ab"` — reconstruction is not character-for-character for
every `include_delim` mode. -/
theorem c2_reconstruction_counterexample :
    ((sentenceChunk ⟨100, 0, 1, 1, [['.']], IncludeDelim.nodelim⟩ (fun s => s.length)
      ['a', '.', 'b']).1.map (fun c => c.text)).flatten ≠ ['a', '.', 'b'] := by
  decide

/-- Claim C2 (amended): reconstruction holds on the sentence path for
`include_delim` in `{prev, next}`, sentinel-free input and
`chunk_overlap = 0` — concatenating the chunk texts reproduces the input
character-for-character; and on the syntax path, for every non-empty
well-formed ordered group list over a non-empty buffer, the reconstructed
slices concatenate byte-for-byte to the original buffer, with gap bytes
attributed to the preceding group, leading bytes to the first group and
trailing bytes to the last. -/
theorem c2_reconstruction_amended :
    (∀ (cfg : SCfg) (tok : List Char → Nat) (text : List Char),
      (cfg.include_delim = IncludeDelim.prev ∨ cfg.include_delim = IncludeDelim.next) →
      cfg.chunk_overlap = 0 → sepChar ∉ text → ¬ text.all Char.isWhitespace →
      ((sentenceChunk cfg tok text).1.map (fun c => c.text)).flatten = text) ∧
    (∀ (ngs : List (List SNode)) (obytes : List Nat), ngs ≠ [] → obytes ≠ [] →
      (∀ g ∈ ngs, ¬ g.isEmpty ∧ groupStart g ≤ groupEnd g ∧ groupEnd g ≤ obytes.length) →
      ngs.Pairwise (fun g h => groupStart g ≤ groupStart h) →
      ∃ cts, getTextsFromNodeGroups ngs obytes = some cts ∧ cts.flatten = obytes) :=
  ⟨sentenceChunk_reconstruct, getTexts_reconstruct⟩

/-- Claim C2 (witness): concrete instances of both reconstruction halves. -/
theorem c2_reconstruction_witness :
    ((sentenceChunk ⟨100, 0, 1, 1, [['.']], IncludeDelim.prev⟩ (fun s => s.length)
      ['a', '.', 'b']).1.map (fun c => c.text)).flatten = ['a', '.', 'b'] ∧
    ∃ cts, getTextsFromNodeGroups [[SNode.mk 2 4 [3, 4] []], [SNode.mk 6 8 [7, 8] []]]
        [1, 2, 3, 4, 5, 6, 7, 8, 9, 10] = some cts ∧
      cts.flatten = [1, 2, 3, 4, 5, 6, 7, 8, 9, 10] :=
  ⟨c2_reconstruction_amended.1 _ _ _ (Or.inl rfl) rfl (by decide) (by decide),
   c2_reconstruction_amended.2 _ _ (by simp) (by decide) (by decide) (by decide)⟩

/-- Claim C3 (counterexample): the packer's binary search uses a strict
inequality: for token counts `[5, 5]` and `chunk_size = 10` the span
`[0, 2)` sums to exactly `10 ≤ chunk_size`, yet the selected split index
is `1`, not `2` — an exact-fit span is NOT taken in full (the run yields
two single-sentence chunks). -/
theorem c3_exact_fit_counterexample :
    takeSum [5, 5] 0 2 = 10 ∧ rawSplitIdx 10 2 (cumsum [5, 5]) 0 = 1 ∧
    (sentencePack 10 1 0 [⟨['a'], 0, 1, 5⟩, ⟨['b'], 1, 2, 5⟩]).1.length = 2 := by
  decide

/-- Claim C3 (amended): with `min_sentences_per_chunk = 1` every sentence
chunk is within budget or is a single (oversized) sentence; the binary
search selects the largest split index whose span sum is STRICTLY below
`chunk_size` (clamped to `[pos + 1, n]`): a larger span reaches at least
`chunk_size`; and every syntax-path group count is at most `chunk_size`
(oversized leaves are dropped, so no group ever exceeds it). -/
theorem c3_budget_amended :
    (∀ (cs co : Nat) (sentences : List Sentence) (c : SChunk),
      c ∈ (sentencePack cs 1 co sentences).1 →
      c.token_count ≤ cs ∨ c.sentences.length = 1) ∧
    (∀ (cs n : Nat) (counts : List Nat) (pos : Nat), n = counts.length → pos < n →
      pos < rawSplitIdx cs n (cumsum counts) pos ∧
      rawSplitIdx cs n (cumsum counts) pos ≤ n ∧
      (rawSplitIdx cs n (cumsum counts) pos = pos + 1 ∨
        takeSum counts pos (rawSplitIdx cs n (cumsum counts) pos) < cs) ∧
      (rawSplitIdx cs n (cumsum counts) pos < n →
        cs ≤ takeSum counts pos (rawSplitIdx cs n (cumsum counts) pos + 1))) ∧
    (∀ (cs : Nat) (tok : List Nat → Nat) (node : SNode) (c : Nat),
      c ∈ (groupChildNodes cs tok node).2 → c ≤ cs) := by
  refine ⟨sentencePack_budget, ?_,
    fun cs tok node c h => groupChildNodes_counts_le cs tok node c h⟩
  intro cs n counts pos hn hpn
  have hb := rawSplitIdx_bounds cs n (cumsum counts) pos hpn
  refine ⟨hb.1, hb.2, ?_, ?_⟩
  · by_cases h1 : rawSplitIdx cs n (cumsum counts) pos = pos + 1
    · exact Or.inl h1
    · exact Or.inr (rawSplitIdx_strict cs n counts pos hn hpn h1)
  · intro hlt
    exact rawSplitIdx_maximal cs n counts pos hn hpn hlt

/-- Claim C3 (witness): concrete instances of all three parts. -/
theorem c3_budget_witness :
    ((⟨['a'], 0, 1, 5, [⟨['a'], 0, 1, 5⟩]⟩ : SChunk).token_count ≤ 10 ∨
      (⟨['a'], 0, 1, 5, [⟨['a'], 0, 1, 5⟩]⟩ : SChunk).sentences.length = 1) ∧
    (0 < rawSplitIdx 10 2 (cumsum [5, 5]) 0 ∧
      rawSplitIdx 10 2 (cumsum [5, 5]) 0 ≤ 2 ∧
      (rawSplitIdx 10 2 (cumsum [5, 5]) 0 = 0 + 1 ∨
        takeSum [5, 5] 0 (rawSplitIdx 10 2 (cumsum [5, 5]) 0) < 10) ∧
      (rawSplitIdx 10 2 (cumsum [5, 5]) 0 < 2 →
        10 ≤ takeSum [5, 5] 0 (rawSplitIdx 10 2 (cumsum [5, 5]) 0 + 1))) ∧
    (6 : Nat) ≤ 7 :=
  ⟨c3_budget_amended.1 10 0 [⟨['a'], 0, 1, 5⟩, ⟨['b'], 1, 2, 5⟩] _ (by decide),
   c3_budget_amended.2.1 10 2 [5, 5] 0 (by decide) (by decide),
   c3_budget_amended.2.2 7 (fun t => t.length)
     (SNode.mk 0 15 []
       [SNode.mk 0 3 [0, 0, 0] [], SNode.mk 3 6 [0, 0, 0] [], SNode.mk 6 9 [0, 0, 0] [],
        SNode.mk 9 12 [0, 0, 0] [], SNode.mk 12 15 [0, 0, 0] []]) 6 (by decide)⟩

/-- Claim C4 (counterexample): pass-2 coalescing refuses a run whose sum
EQUALS `chunk_size`: with pass-1 counts `[3, 4, 4]` (the `4` in the middle
spliced from an oversized child) and `chunk_size = 7`, the adjacent run
`[3, 4]` sums to exactly `7` and stays within the budget, yet pass 2
leaves the counts `[3, 4, 4]` unmerged — so pass 2 does not merge every
maximal run that stays within `chunk_size`. -/
theorem c4_equal_sum_run_counterexample :
    (groupChildNodes 7 (fun t => t.length)
      (SNode.mk 0 15 []
        [SNode.mk 0 3 [0, 0, 0] [],
         SNode.mk 3 11 [0, 0, 0, 0, 0, 0, 0, 0] [SNode.mk 3 7 [0, 0, 0, 0] []],
         SNode.mk 11 15 [0, 0, 0, 0] []])).2 = [3, 4, 4] ∧ 3 + 4 ≤ 7 := by
  decide

/-- Claim C4 (amended): the scenario holds — five sibling children of 3
tokens each with `chunk_size = 7` give pass-1 groups `[6, 6, 3]` which
pass 2 leaves unmerged as `[6, 6, 3]` with the expected group members;
pass 2 never produces a merged count above `chunk_size` when its inputs
are within `chunk_size`; and coalescing conserves the total token count
(each merged count is the sum of its members' counts).  Runs are cut
before the group that would make the sum REACH `chunk_size` (strict
bisect), per the counterexample. -/
theorem c4_coalescing_amended :
    ((groupChildNodes 7 (fun t => t.length)
        (SNode.mk 0 15 []
          [SNode.mk 0 3 [0, 0, 0] [], SNode.mk 3 6 [0, 0, 0] [], SNode.mk 6 9 [0, 0, 0] [],
           SNode.mk 9 12 [0, 0, 0] [], SNode.mk 12 15 [0, 0, 0] []])).2 = [6, 6, 3] ∧
      (groupChildNodes 7 (fun t => t.length)
        (SNode.mk 0 15 []
          [SNode.mk 0 3 [0, 0, 0] [], SNode.mk 3 6 [0, 0, 0] [], SNode.mk 6 9 [0, 0, 0] [],
           SNode.mk 9 12 [0, 0, 0] [], SNode.mk 12 15 [0, 0, 0] []])).1.map
        (fun g => g.map SNode.start_byte) = [[0, 3], [6, 9], [12]]) ∧
    (∀ (cs : Nat) (gs : List (List SNode)) (cnts : List Nat), gs.length = cnts.length →
      (∀ c ∈ cnts, c ≤ cs) → ∀ c ∈ (pass2 cs (gs, cnts)).2, c ≤ cs) ∧
    (∀ (cs : Nat) (gs : List (List SNode)) (cnts : List Nat), gs.length = cnts.length →
      ((pass2 cs (gs, cnts)).2).sum = cnts.sum) :=
  ⟨⟨by decide, by decide⟩, pass2_counts_le, pass2_sum⟩

/-- Claim C4 (witness): concrete instances of the quantified parts. -/
theorem c4_coalescing_witness :
    (6 : Nat) ≤ 7 ∧
    ((pass2 7 ([[SNode.mk 0 3 [] []], [SNode.mk 3 6 [] []]], [6, 6])).2).sum = [6, 6].sum :=
  ⟨c4_coalescing_amended.2.1 7 [[SNode.mk 0 3 [] []], [SNode.mk 3 6 [] []]] [6, 6] (by decide)
      (by decide) 6 (by decide),
   c4_coalescing_amended.2.2 7 [[SNode.mk 0 3 [] []], [SNode.mk 3 6 [] []]] [6, 6] (by decide)⟩

/-- Claim C5: every sentence chunk except the last has at least
`min_sentences_per_chunk` constituent sentences; when the budget-selected
span is too short and at least `min_sentences_per_chunk` sentences remain,
the split index is forced to exactly `pos + min_sentences_per_chunk`
(overriding the token budget); when fewer remain, the split takes all
remaining sentences and the `UnmetMinimumWarning` flag is set — the call
still returns normally. -/
theorem c5_min_sentences :
    (∀ (cs ms co : Nat) (sentences : List Sentence) (i : Nat), 1 ≤ ms →
      i + 1 < (sentencePack cs ms co sentences).1.length →
      ms ≤ (((sentencePack cs ms co sentences).1.getD i (mkChunk [] 0)).sentences).length) ∧
    (∀ (cs ms n : Nat) (sums : List Nat) (pos : Nat), pos < n →
      rawSplitIdx cs n sums pos - pos < ms →
      (pos + ms ≤ n → splitIdxAt cs ms n sums pos = pos + ms) ∧
      (n < pos + ms → splitIdxAt cs ms n sums pos = n ∧
        warnAt cs ms n sums pos = true)) := by
  constructor
  · intro cs ms co sentences i hms hi
    unfold sentencePack at hi ⊢
    exact chunkLoop_min_sentences cs ms co sentences.length sentences _ _ rfl 0 i hi
  · intro cs ms n sums pos hpn hforce
    constructor
    · intro henough
      unfold splitIdxAt
      rw [if_pos hforce, if_pos henough]
    · intro hnot
      refine ⟨?_, ?_⟩
      · unfold splitIdxAt
        rw [if_pos hforce, if_neg (by omega)]
      · exact decide_eq_true ⟨hforce, by omega⟩

/-- Claim C5 (witness): a run where every non-last chunk holds the
minimum, and a cursor where the remainder is insufficient, warning set. -/
theorem c5_min_sentences_witness :
    2 ≤ (((sentencePack 6 2 0 [⟨['a'], 0, 1, 2⟩, ⟨['b'], 1, 2, 3⟩, ⟨['c'], 2, 3, 2⟩]).1.getD 0
        (mkChunk [] 0)).sentences).length ∧
    ((2 + 2 ≤ 3 → splitIdxAt 6 2 3 (cumsum [2, 3, 2]) 2 = 2 + 2) ∧
      (3 < 2 + 2 → splitIdxAt 6 2 3 (cumsum [2, 3, 2]) 2 = 3 ∧
        warnAt 6 2 3 (cumsum [2, 3, 2]) 2 = true)) :=
  ⟨c5_min_sentences.1 6 2 0 [⟨['a'], 0, 1, 2⟩, ⟨['b'], 1, 2, 3⟩, ⟨['c'], 2, 3, 2⟩] 0
      (by decide) (by decide),
   c5_min_sentences.2 6 2 3 (cumsum [2, 3, 2]) 2 (by decide) (by decide)⟩

/-- Claim C6: when `chunk_overlap > 0` and sentences remain past the
split, the cursor advances strictly but not past the split index; the
overlap mass of the shared span — each sentence contributing its token
count plus one — never exceeds `chunk_overlap` (hence neither does the
plain token sum); and when even the last sentence alone would exceed
`chunk_overlap`, the cursor resumes exactly at the split index.  Overlap
is sentence-granular by construction: the walk moves whole sentence
indices only. -/
theorem c6_overlap_bound : ∀ (cs ms co n : Nat) (counts sums : List Nat) (pos : Nat),
    pos < n → n = counts.length → 0 < co → splitIdxAt cs ms n sums pos < n →
    pos < nextPosAt cs ms co n counts sums pos ∧
    nextPosAt cs ms co n counts sums pos ≤ splitIdxAt cs ms n sums pos ∧
    massRange counts (nextPosAt cs ms co n counts sums pos)
      (splitIdxAt cs ms n sums pos) ≤ co ∧
    takeSum counts (nextPosAt cs ms co n counts sums pos)
      (splitIdxAt cs ms n sums pos) ≤ co ∧
    (co < counts.getD (splitIdxAt cs ms n sums pos - 1) 0 + 1 →
      nextPosAt cs ms co n counts sums pos = splitIdxAt cs ms n sums pos) :=
  fun cs ms co n counts sums pos hpn hn hco hsi =>
    nextPosAt_overlap_spec cs ms co n counts sums pos hpn hn hco hsi

/-- Claim C6 (witness): counts `[2, 3, 2]`, budget 6, overlap 4: the
second sentence (mass `3 + 1 = 4`) fits the overlap exactly and the next
cursor is 1. -/
theorem c6_overlap_bound_witness :
    0 < nextPosAt 6 1 4 3 [2, 3, 2] (cumsum [2, 3, 2]) 0 ∧
    nextPosAt 6 1 4 3 [2, 3, 2] (cumsum [2, 3, 2]) 0 ≤
      splitIdxAt 6 1 3 (cumsum [2, 3, 2]) 0 ∧
    massRange [2, 3, 2] (nextPosAt 6 1 4 3 [2, 3, 2] (cumsum [2, 3, 2]) 0)
      (splitIdxAt 6 1 3 (cumsum [2, 3, 2]) 0) ≤ 4 ∧
    takeSum [2, 3, 2] (nextPosAt 6 1 4 3 [2, 3, 2] (cumsum [2, 3, 2]) 0)
      (splitIdxAt 6 1 3 (cumsum [2, 3, 2]) 0) ≤ 4 ∧
    (4 < [2, 3, 2].getD (splitIdxAt 6 1 3 (cumsum [2, 3, 2]) 0 - 1) 0 + 1 →
      nextPosAt 6 1 4 3 [2, 3, 2] (cumsum [2, 3, 2]) 0 =
        splitIdxAt 6 1 3 (cumsum [2, 3, 2]) 0) :=
  c6_overlap_bound 6 1 4 3 [2, 3, 2] (cumsum [2, 3, 2]) 0 (by decide) (by decide)
    (by decide) (by decide)

/-- Claim C7 (counterexample): construction does NOT fail on an empty
delimiter set — the code only checks `delim is None`, so `delim = []`
passes validation, contradicting the claim that an error is raised
exactly when (among others) the delimiter set is empty. -/
theorem c7_empty_delim_counterexample :
    initValidate ⟨512, 0, 1, 12, some [], IncludeDelimParam.prev,
      ReturnTypeParam.chunks⟩ = Except.ok () ∧
    (⟨512, 0, 1, 12, some [], IncludeDelimParam.prev, ReturnTypeParam.chunks⟩ :
      RawConfig).delim = some [] :=
  ⟨rfl, rfl⟩

/-- Claim C7 (amended): `SentenceChunker` construction fails exactly when
`chunk_size ≤ 0`, `chunk_overlap ≥ chunk_size`,
`min_sentences_per_chunk < 1`, `min_characters_per_sentence < 1`,
`delim` is undefined (`None` — an empty list is accepted), or
`include_delim`/`return_type` take unsupported values; validation runs
only at construction (the chunking functions in this file are total and
raise no configuration error). -/
theorem c7_validation_amended (cfg : RawConfig) :
    initValidate cfg = Except.ok () ↔
      (0 < cfg.chunk_size ∧ cfg.chunk_overlap < cfg.chunk_size ∧
        1 ≤ cfg.min_sentences_per_chunk ∧ 1 ≤ cfg.min_characters_per_sentence ∧
        cfg.delim ≠ none ∧ cfg.include_delim ≠ IncludeDelimParam.other ∧
        cfg.return_type ≠ ReturnTypeParam.other) := by
  unfold initValidate
  split_ifs with h1 h2 h3 h4 h5 h6 h7 <;> simp_all

/-- Claim C7 (witness): a fully valid configuration is accepted. -/
theorem c7_validation_witness :
    initValidate ⟨512, 0, 1, 12, some [['.']], IncludeDelimParam.prev,
      ReturnTypeParam.chunks⟩ = Except.ok () :=
  (c7_validation_amended _).mpr (by decide)

/-- Claim C8: the spec says `chunk(text)` always completes and returns a
result rather than throwing.  On a tree whose root has a single oversized
childless child over non-whitespace bytes, `_group_child_nodes` returns an
empty group list and `_get_texts_from_node_groups` indexes
`node_groups[0]`, raising an uncaught `IndexError` (modelled `none`): the
call throws.  Empty/whitespace-only input does return `[]` (second
conjunct). -/
theorem c8_chunk_raises_on_oversized_leaf :
    codeChunkTexts 3 (fun t => t.length)
      (SNode.mk 0 5 [97, 97, 97, 97, 97] [SNode.mk 0 5 [97, 97, 97, 97, 97] []])
      [97, 97, 97, 97, 97] = none ∧
    codeChunkTexts 3 (fun t => t.length)
      (SNode.mk 0 1 [32] [SNode.mk 0 1 [32] []]) [32] = some [] := by
  decide

/-- Claim C9: the packer's cursor strictly increases on every iteration
and never passes the end of the sentence sequence, so the loop emits at
most `n - pos` chunks and terminates. -/
theorem c9_cursor_progress : ∀ (cs ms co n : Nat) (sentences : List Sentence)
    (counts sums : List Nat) (pos : Nat), pos < n →
    pos < nextPosAt cs ms co n counts sums pos ∧
    nextPosAt cs ms co n counts sums pos ≤ n ∧
    (chunkLoop cs ms co n sentences counts sums pos).1.length ≤ n - pos := by
  intro cs ms co n sentences counts sums pos hpn
  have h1 := nextPosAt_bounds cs ms co n counts sums pos hpn
  exact ⟨h1.1, h1.2, chunkLoop_length_le cs ms co n sentences counts sums pos⟩

/-- Claim C9 (witness): concrete progress instance. -/
theorem c9_cursor_progress_witness :
    0 < nextPosAt 10 1 0 2 [5, 5] (cumsum [5, 5]) 0 ∧
    nextPosAt 10 1 0 2 [5, 5] (cumsum [5, 5]) 0 ≤ 2 ∧
    (chunkLoop 10 1 0 2 [⟨['a'], 0, 1, 5⟩, ⟨['b'], 1, 2, 5⟩] [5, 5]
      (cumsum [5, 5]) 0).1.length ≤ 2 - 0 :=
  c9_cursor_progress 10 1 0 2 [⟨['a'], 0, 1, 5⟩, ⟨['b'], 1, 2, 5⟩] [5, 5]
    (cumsum [5, 5]) 0 (by decide)

/-- Claim C10: every sentence chunk's reported `token_count` equals
exactly the sum of its constituent sentences' token counts, and the chunk
emitted at any cursor position is `emitAt`, which takes no
`chunk_overlap` argument at all — overlap only repositions the cursor for
the next chunk, never altering an already-emitted chunk's text,
token count or constituents. -/
theorem c10_exact_counts_overlap_inert :
    (∀ (cs ms co : Nat) (sentences : List Sentence) (c : SChunk),
      c ∈ (sentencePack cs ms co sentences).1 →
      c.token_count = (c.sentences.map (fun s => s.token_count)).sum) ∧
    (∀ (cs ms co n : Nat) (sentences : List Sentence) (counts sums : List Nat) (pos : Nat),
      pos < n →
      (chunkLoop cs ms co n sentences counts sums pos).1.head? =
        some (emitAt cs ms n sentences sums pos)) :=
  ⟨sentencePack_token_count_exact,
   fun cs ms co n sentences counts sums pos hpn =>
     chunkLoop_head cs ms co n sentences counts sums pos hpn⟩

/-- Claim C10 (witness): concrete instances of both parts (note the
`emitAt` on the right-hand side is the same for any overlap value). -/
theorem c10_exact_counts_witness :
    (⟨['a'], 0, 1, 5, [⟨['a'], 0, 1, 5⟩]⟩ : SChunk).token_count =
      ((⟨['a'], 0, 1, 5, [⟨['a'], 0, 1, 5⟩]⟩ : SChunk).sentences.map
        (fun s => s.token_count)).sum ∧
    (chunkLoop 10 1 3 2 [⟨['a'], 0, 1, 5⟩, ⟨['b'], 1, 2, 5⟩] [5, 5]
        (cumsum [5, 5]) 0).1.head? =
      some (emitAt 10 1 2 [⟨['a'], 0, 1, 5⟩, ⟨['b'], 1, 2, 5⟩] (cumsum [5, 5]) 0) :=
  ⟨c10_exact_counts_overlap_inert.1 10 1 0 [⟨['a'], 0, 1, 5⟩, ⟨['b'], 1, 2, 5⟩] _ (by decide),
   c10_exact_counts_overlap_inert.2 10 1 3 2 [⟨['a'], 0, 1, 5⟩, ⟨['b'], 1, 2, 5⟩] [5, 5]
     (cumsum [5, 5]) 0 (by decide)⟩

end Chonkie
